import Mathlib

/-!
Verification of the storage-backed red-black tree engine of the orderbook
repository (`redblacktree` source file, here `src/unnamed/part_000`).

The Go code keeps every tree node as a record in an external key-value
store; structural fields (`left`, `right`, `parent`) are key references,
and every pointer dereference is a storage load.  We embed the engine
shallowly: keys and values are byte strings (`List Nat`), the storage
collaborator is an association list plus explicit failure sets, and each
Go function becomes a pure Lean function threading the tree state.  Go
mutations of an in-memory `*Node` become local rebinding of a `Node`
value, and `Save` persists a snapshot — this models faithfully the
source's aliasing behaviour, where a node loaded twice yields two
independent copies and a stale copy can be saved over newer data.

Panics (nil dereference, `assertNotNull`) and fuel exhaustion of loops
are modelled by an `Except Crash` result; they are distinguished so that
a `.panic` outcome is unambiguously a Go runtime panic and not an
artifact of bounded fuel.

The comparator is fixed to `bytes.Compare` (the `NewWithBytesComparator`
instantiation used by the orderbook).  The node accessor methods, the
`Item`/`KeyMeta` record, the color constants and the `BatchDatabase`
interface live in repository files that are not part of `src/`; they are
modelled from the spec where so marked.
-/

namespace Orderbook

/-- Byte-string key, as in the Go `[]byte` keys. -/
abbrev Key := List Nat

/-- Opaque payload bytes. -/
abbrev Value := List Nat

/-- Modelled from the spec: the reserved sentinel key reference meaning
"no reference" (`EmptyKey()` in the missing db file): the empty byte
string. -/
def EmptyKey : Key := []

/-- Shallow embedding of Go `bytes.Compare`: lexicographic order on byte
strings, a shorter strict prefix being smaller; returns -1, 0 or 1. -/
def bytesCompare : Key → Key → Int
  | [], [] => 0
  | [], _ :: _ => -1
  | _ :: _, [] => 1
  | a :: as, b :: bs =>
    if a < b then -1 else if b < a then 1 else bytesCompare as bs

/-- Modelled from the spec: the two-valued color tag.  The polarity
(black = `true`) is forced by the fixup conditions in the source
(e.g. `insertCase2` stops when `nodeColor(parent)` holds, and the spec
says case 2 stops when the parent is black). -/
def black : Bool := true

/-- Modelled from the spec: the red color tag. -/
def red : Bool := false

/-- Modelled from the spec: the stored node record (`Item` plus its
`KeyMeta` in the missing node file): payload, color and the three
structural key references. -/
structure Item where
  value : Value
  color : Bool
  left : Key
  right : Key
  parent : Key
deriving Repr, DecidableEq

/-- The in-memory materialization of one stored entry: its key plus its
record, as in the Go `Node` struct. -/
structure Node where
  key : Key
  item : Item
deriving Repr, DecidableEq

/-- Modelled from the spec: the storage collaborator (`BatchDatabase`).
Records are an association list; `loadFails` (resp. `storeFails`) lists
the keys whose load (resp. store) fails with a storage error, letting the
error-handling claims be stated.  `failCount` is ghost instrumentation
counting the stores that failed (and were therefore skipped). -/
structure DB where
  records : List (Key × Item)
  loadFails : List Key
  storeFails : List Key
  failCount : Nat
deriving Repr, DecidableEq

/-- Association-list lookup used by the storage model. -/
def lookupRec : List (Key × Item) → Key → Option Item
  | [], _ => none
  | (k', it) :: rest, k => if k' == k then some it else lookupRec rest k

/-- Association-list upsert used by the storage model. -/
def insertRec : List (Key × Item) → Key → Item → List (Key × Item)
  | [], k, it => [(k, it)]
  | (k', it') :: rest, k, it =>
    if k' == k then (k, it) :: rest else (k', it') :: insertRec rest k it

/-- Association-list removal used by the storage model. -/
def removeRec : List (Key × Item) → Key → List (Key × Item)
  | [], _ => []
  | (k', it') :: rest, k =>
    if k' == k then removeRec rest k else (k', it') :: removeRec rest k

/-- Modelled from the spec: `db.IsEmptyKey` tests the sentinel. -/
def DB.isEmptyKey (_ : DB) (k : Key) : Bool := k == EmptyKey

/-- Modelled from the spec: `db.Get` — loading the sentinel yields the
absent record, a key in `loadFails` yields a storage error, otherwise the
stored record (or absent). -/
def DB.get (db : DB) (k : Key) : Except Unit (Option Item) :=
  if k == EmptyKey then .ok none
  else if db.loadFails.contains k then .error ()
  else .ok (lookupRec db.records k)

/-- Modelled from the spec: `db.Put` upserts; a failing store leaves the
records unchanged, reports the error and bumps the ghost fail counter. -/
def DB.put (db : DB) (k : Key) (it : Item) : DB × Option Unit :=
  if db.storeFails.contains k then
    ({ db with failCount := db.failCount + 1 }, some ())
  else
    ({ db with records := insertRec db.records k it }, none)

/-- Modelled from the spec: `db.Has` — existence test; sentinel is never
present, a key in `loadFails` reports a storage error. -/
def DB.has (db : DB) (k : Key) : Bool × Option Unit :=
  if k == EmptyKey then (false, none)
  else if db.loadFails.contains k then (false, some ())
  else ((lookupRec db.records k).isSome, none)

/-- Modelled from the spec: `db.Delete` removes a stored record. -/
def DB.delete (db : DB) (k : Key) (_force : Bool) : DB :=
  { db with records := removeRec db.records k }

/-- The tree engine state: storage collaborator, transient root key
reference and transient element count.  The count is the value of the Go
`uint64` field, kept below `2 ^ 64` by explicit wraparound at each
update.  The comparator is fixed to `bytesCompare`
(`NewWithBytesComparator`). -/
structure Tree where
  db : DB
  rootKey : Key
  size : Nat
deriving Repr, DecidableEq

/-- Crash outcomes of an operation: a Go runtime panic (nil dereference
or `assertNotNull`), or exhaustion of the fuel bounding loops and
recursion over the storage graph. -/
inductive Crash where
  | fuel
  | panic
deriving Repr, DecidableEq

/-- Result monad for operations that can panic or run out of fuel. -/
abbrev M := Except Crash

/-- Dereference of a possibly-nil node: Go panics with a nil-pointer
dereference. -/
def req : Option α → M α
  | none => .error .panic
  | some a => .ok a

/-- Source `GetNode`: loads a record and materializes it; a storage error
or an absent record both yield a nil node, the error being forwarded. -/
def Tree.GetNode (t : Tree) (k : Key) : Except Unit (Option Node) :=
  match t.db.get k with
  | .error e => .error e
  | .ok none => .ok none
  | .ok (some it) => .ok (some ⟨k, it⟩)

/-- Modelled from the spec: node accessors resolve a key reference
through the storage collaborator, discarding the error (a failed load
reads as an absent node), as in `root, _ := tree.GetNode(...)`. -/
def Tree.nodeGet (t : Tree) (k : Key) : Option Node :=
  match t.GetNode k with
  | .error _ => none
  | .ok r => r

/-- Source `Root`: resolve the transient root key reference. -/
def Tree.Root (t : Tree) : Option Node := t.nodeGet t.rootKey

/-- Modelled from the spec: the getter half of the Go variadic
`LeftKey` accessor — reads the in-memory record field. -/
def Node.LeftKey (n : Node) : Key := n.item.left

/-- Modelled from the spec: getter half of `RightKey`. -/
def Node.RightKey (n : Node) : Key := n.item.right

/-- Modelled from the spec: getter half of `ParentKey`. -/
def Node.ParentKey (n : Node) : Key := n.item.parent

/-- Modelled from the spec: the setter half of `LeftKey` — mutates the
in-memory record only; persisting requires an explicit `Save`. -/
def Node.setLeftKey (n : Node) (k : Key) : Node :=
  { n with item := { n.item with left := k } }

/-- Modelled from the spec: setter half of `RightKey`. -/
def Node.setRightKey (n : Node) (k : Key) : Node :=
  { n with item := { n.item with right := k } }

/-- Modelled from the spec: setter half of `ParentKey`. -/
def Node.setParentKey (n : Node) (k : Key) : Node :=
  { n with item := { n.item with parent := k } }

/-- Modelled from the spec: in-memory color assignment
(`node.Item.Color = c`). -/
def Node.setColor (n : Node) (c : Bool) : Node :=
  { n with item := { n.item with color := c } }

/-- Modelled from the spec: `node.Left(tree)` — a fallible load of the
left key reference, yielding a fresh independent copy. -/
def Node.Left (n : Node) (t : Tree) : Option Node := t.nodeGet n.LeftKey

/-- Modelled from the spec: `node.Right(tree)`. -/
def Node.Right (n : Node) (t : Tree) : Option Node := t.nodeGet n.RightKey

/-- Modelled from the spec: `node.Parent(tree)`. -/
def Node.Parent (n : Node) (t : Tree) : Option Node := t.nodeGet n.ParentKey

/-- Source `nodeColor`: an absent node reads as black. -/
def nodeColor : Option Node → Bool
  | none => black
  | some n => n.item.color

/-- Modelled from the spec: `node.sibling(tree)` — the parent's other
child, the side being decided by comparing the node's key with the
parent's left key reference, as the source does throughout. -/
def Node.sibling (n : Node) (t : Tree) : Option Node :=
  match n.Parent t with
  | none => none
  | some p => if bytesCompare n.key p.LeftKey == 0 then p.Right t else p.Left t

/-- Modelled from the spec: `node.uncle(tree)` — the parent's sibling. -/
def Node.uncle (n : Node) (t : Tree) : Option Node :=
  match n.Parent t with
  | none => none
  | some p => p.sibling t

/-- Modelled from the spec: `left.maximumNode(tree)` — rightmost descent
used to find the in-order predecessor; a dangling right reference would
make the Go loop dereference nil. -/
def Tree.maximumNode (t : Tree) : Nat → Node → M Node
  | 0, _ => .error .fuel
  | fuel + 1, n =>
    if t.db.isEmptyKey n.RightKey then .ok n
    else
      match n.Right t with
      | none => .error .panic
      | some r => t.maximumNode fuel r

/-- Source `Save`: persist one node record, returning the storage
error. -/
def Tree.Save (t : Tree) (n : Node) : Tree × Option Unit :=
  let (db', e) := t.db.put n.key n.item
  ({ t with db := db' }, e)

/-- Source `Has`: a direct storage existence test. -/
def Tree.Has (t : Tree) (k : Key) : Bool × Option Unit := t.db.has k

/-- Source `Get`: a direct storage load by key; a storage error or a
missing record reads as not found. -/
def Tree.Get (t : Tree) (k : Key) : Option Value × Bool :=
  match t.GetNode k with
  | .error _ => (none, false)
  | .ok none => (none, false)
  | .ok (some n) => (some n.item.value, true)

/-- Source `Empty`. -/
def Tree.Empty (t : Tree) : Bool := t.size == 0

/-- Source `Size`. -/
def Tree.Size (t : Tree) : Nat := t.size

/-- Source `Clear`: resets the transient root reference and count; the
stored records are not purged. -/
def Tree.Clear (t : Tree) : Tree := { t with rootKey := EmptyKey, size := 0 }

/-- The initial engine state over an empty, never-failing storage
(`NewWithBytesComparator` over a fresh db). -/
def emptyTree : Tree := ⟨⟨[], [], [], 0⟩, EmptyKey, 0⟩

/-- Source `replaceNode` (lines 390-431): update the parent's child
reference (or the transient root reference) to point at `newN`, then
reassign `newN`'s parent reference and persist it.  The updated
in-memory copy of `newN` is returned because the callers keep using
their struct after the call.  A nil `oldParent` dereferences nil in the
comparator call. -/
def Tree.replaceNode (t : Tree) (old : Node) (newN : Option Node) :
    M (Tree × Option Node) := do
  let newKey := match newN with | none => EmptyKey | some n => n.key
  let t1 ←
    if t.db.isEmptyKey old.ParentKey then
      pure { t with rootKey := newKey }
    else do
      let oldParent ← req (old.Parent t)
      let oldParent1 :=
        if bytesCompare old.key oldParent.LeftKey == 0 then
          oldParent.setLeftKey newKey
        else
          oldParent.setRightKey newKey
      pure (t.Save oldParent1).1
  match newN with
  | none => pure (t1, none)
  | some n =>
    let n1 := n.setParentKey old.ParentKey
    pure ((t1.Save n1).1, some n1)

/-- Source `rotateLeft` (lines 360-373).  The pivot's right child is a
fresh load; the caller's other in-memory copies of the same record are
left stale, exactly as in the source.  A nil right child panics at
`right.LeftKey()`. -/
def Tree.rotateLeft (t : Tree) (node : Node) : M Tree := do
  let right ← req (node.Right t)
  let (t1, right?) ← t.replaceNode node (some right)
  let right1 ← req right?
  let node1 := node.setRightKey right1.LeftKey
  let t2 ←
    if t1.db.isEmptyKey right1.LeftKey then
      pure t1
    else do
      let rightLeft ← req (t1.nodeGet right1.LeftKey)
      pure (t1.Save (rightLeft.setParentKey node1.key)).1
  let right2 := right1.setLeftKey node1.key
  let node2 := node1.setParentKey right2.key
  pure ((t2.Save node2).1.Save right2).1

/-- Source `rotateRight` (lines 375-388), mirror of `rotateLeft`. -/
def Tree.rotateRight (t : Tree) (node : Node) : M Tree := do
  let left ← req (node.Left t)
  let (t1, left?) ← t.replaceNode node (some left)
  let left1 ← req left?
  let node1 := node.setLeftKey left1.RightKey
  let t2 ←
    if t1.db.isEmptyKey left1.RightKey then
      pure t1
    else do
      let leftRight ← req (t1.nodeGet left1.RightKey)
      pure (t1.Save (leftRight.setParentKey node1.key)).1
  let left2 := left1.setRightKey node1.key
  let node2 := node1.setParentKey left2.key
  pure ((t2.Save node2).1.Save left2).1

/-- Source `insertCase5` (lines 506-528): recolor parent black and
grandparent red, persist both, then rotate the grandparent outward.  A
nil parent or grandparent panics (`assertNotNull`). -/
def Tree.insertCase5 (t : Tree) (node : Node) : M Tree := do
  let parent ← req (node.Parent t)
  let parent1 := parent.setColor black
  let t1 := (t.Save parent1).1
  let grandparent ← req (parent1.Parent t1)
  let grandparent1 := grandparent.setColor red
  let t2 := (t1.Save grandparent1).1
  if bytesCompare node.key parent1.LeftKey == 0 &&
      bytesCompare parent1.key grandparent1.LeftKey == 0 then
    t2.rotateRight grandparent1
  else if bytesCompare node.key parent1.RightKey == 0 &&
      bytesCompare parent1.key grandparent1.RightKey == 0 then
    t2.rotateLeft grandparent1
  else
    pure t2

/-- Source `insertCase4` (lines 481-498): on a zig-zag shape rotate the
parent, then continue with `node = node.Left(tree)` — read from the
caller's in-memory copy, which the rotation did **not** update; if that
stale reference resolves to nil, `insertCase5` dereferences nil. -/
def Tree.insertCase4 (t : Tree) (node : Node) : M Tree := do
  let parent ← req (node.Parent t)
  let grandparent ← req (parent.Parent t)
  if bytesCompare node.key parent.RightKey == 0 &&
      bytesCompare parent.key grandparent.LeftKey == 0 then do
    let t1 ← t.rotateLeft parent
    let node1 ← req (node.Left t1)
    t1.insertCase5 node1
  else if bytesCompare node.key parent.LeftKey == 0 &&
      bytesCompare parent.key grandparent.RightKey == 0 then do
    let t1 ← t.rotateRight parent
    let node1 ← req (node.Right t1)
    t1.insertCase5 node1
  else
    t.insertCase5 node

/-- Source `insertCase3` (lines 458-479), parametrized by the
tail-recursive re-entry into `insertCase1` (`rec1`): red uncle →
recolor parent and uncle black, persist, recolor the grandparent red,
recurse on it and only then persist the (possibly stale) in-memory
grandparent; black uncle → case 4.  The returned node is the caller's
in-memory copy, unchanged here. -/
def Tree.insertCase3 (rec1 : Tree → Node → M (Tree × Node)) (t : Tree)
    (node : Node) : M (Tree × Node) := do
  let uncle? := node.uncle t
  if !(nodeColor uncle?) then do
    let parent ← req (node.Parent t)
    let uncle ← req uncle?
    let parent1 := parent.setColor black
    let uncle1 := uncle.setColor black
    let t1 := (t.Save uncle1).1
    let t2 := (t1.Save parent1).1
    let grandparent ← req (parent1.Parent t2)
    let grandparent1 := grandparent.setColor red
    let (t3, grandparent2) ← rec1 t2 grandparent1
    pure ((t3.Save grandparent2).1, node)
  else do
    let t1 ← t.insertCase4 node
    pure (t1, node)

/-- Source `insertCase2` (lines 446-456): black parent → the invariants
already hold. -/
def Tree.insertCase2 (rec1 : Tree → Node → M (Tree × Node)) (t : Tree)
    (node : Node) : M (Tree × Node) := do
  if nodeColor (node.Parent t) then
    pure (t, node)
  else
    t.insertCase3 rec1 node

/-- Source `insertCase1` (lines 433-444): no parent → blacken the
in-memory node (not persisted here) and stop, else case 2.  The fuel
bounds the `insertCase3 → insertCase1` tail recursion up the tree; the
possibly-blackened in-memory node is returned because the caller
persists it afterwards. -/
def Tree.insertCase1 (t : Tree) : Nat → Node → M (Tree × Node)
  | 0, _ => .error .fuel
  | fuel + 1, node =>
    if t.db.isEmptyKey node.ParentKey then
      .ok (t, node.setColor black)
    else
      t.insertCase2 (fun t' n' => t'.insertCase1 fuel n') node

/-- Outcome of the descent loop of `Put`: either the equal-key branch
already saved the overwritten node and returned, or a fresh red node was
attached below the node with key `parentKey`. -/
inductive PutStep where
  | done (t : Tree)
  | attached (t : Tree) (inserted : Node) (parentKey : Key)
deriving Repr

/-- The descent loop of source `Put` (lines 64-100): equal key →
overwrite the value in place, persist, return; smaller → attach on an
empty left reference (persisting the parent first) or descend; larger →
symmetric.  A descent into a dangling reference makes the next
iteration dereference nil. -/
def Tree.putLoop (t : Tree) (key : Key) (value : Value) :
    Nat → Node → M PutStep
  | 0, _ => .error .fuel
  | fuel + 1, node =>
    let compare := bytesCompare key node.key
    if compare == 0 then
      let node1 := { node with item := { node.item with value := value } }
      .ok (.done (t.Save node1).1)
    else if compare < 0 then
      if t.db.isEmptyKey node.LeftKey then
        let t1 := (t.Save (node.setLeftKey key)).1
        let item : Item := ⟨value, red, EmptyKey, EmptyKey, EmptyKey⟩
        .ok (.attached t1 ⟨key, item⟩ node.key)
      else
        match node.Left t with
        | none => .error .panic
        | some nodeLeft => t.putLoop key value fuel nodeLeft
    else
      if t.db.isEmptyKey node.RightKey then
        let t1 := (t.Save (node.setRightKey key)).1
        let item : Item := ⟨value, red, EmptyKey, EmptyKey, EmptyKey⟩
        .ok (.attached t1 ⟨key, item⟩ node.key)
      else
        match node.Right t with
        | none => .error .panic
        | some nodeRight => t.putLoop key value fuel nodeRight

/-- The common tail of source `Put` (lines 107-112): run the insertion
fixup on the newly attached in-memory node, persist it again (ignoring
the store error, as the source does), bump the wrapping `uint64` count
and return the Go `nil` error. -/
def Tree.finishInsert (t : Tree) (inserted : Node) (fuel : Nat) :
    M (Tree × Option Unit) := do
  let (t1, inserted1) ← t.insertCase1 fuel inserted
  let (t2, _) := t1.Save inserted1
  pure ({ t2 with size := (t2.size + 1) % 2 ^ 64 }, none)

/-- Source `Put` (lines 55-113).  Every `tree.Save` error is discarded
and both return sites yield the Go `nil` error; the second component of
a successful result is that returned error. -/
def Tree.Put (t : Tree) (key : Key) (value : Value) (fuel : Nat) :
    M (Tree × Option Unit) := do
  if t.db.isEmptyKey t.rootKey then
    let item : Item := ⟨value, red, EmptyKey, EmptyKey, EmptyKey⟩
    let t1 := { t with rootKey := key }
    t1.finishInsert ⟨key, item⟩ fuel
  else do
    let root ← req t.Root
    match ← t.putLoop key value fuel root with
    | .done t1 => pure (t1, none)
    | .attached t1 inserted parentKey =>
      let inserted1 := inserted.setParentKey parentKey
      let (t2, _) := t1.Save inserted1
      t2.finishInsert inserted1 fuel

/-- Source `deleteNode` (lines 687-693): the physical storage delete is
skipped when more than one element remains and the node's key equals the
current root key; otherwise the record is deleted. -/
def Tree.deleteNode (t : Tree) (node : Node) (force : Bool) : Tree :=
  if t.size > 1 && bytesCompare node.key t.rootKey == 0 then t
  else { t with db := t.db.delete node.key force }

/-- Source `deleteCase6` (lines 651-678): terminal double-black case —
recolor the sibling to the parent's color, blacken the parent, rotate
the parent toward the node's side, then physically delete the node's
record (subject to the root carve-out). -/
def Tree.deleteCase6 (t : Tree) (node : Node) : M Tree := do
  let parent ← req (node.Parent t)
  let sibling ← req (node.sibling t)
  let siblingLeft? := sibling.Left t
  let siblingRight? := sibling.Right t
  let sibling1 := sibling.setColor (nodeColor (some parent))
  let parent1 := parent.setColor black
  let t1 := (t.Save sibling1).1
  let t2 := (t1.Save parent1).1
  let t3 ←
    if bytesCompare node.key parent1.LeftKey == 0 &&
        !(nodeColor siblingRight?) then do
      let siblingRight ← req siblingRight?
      let t3 := (t2.Save (siblingRight.setColor black)).1
      t3.rotateLeft parent1
    else if !(nodeColor siblingLeft?) then do
      let siblingLeft ← req siblingLeft?
      let t3 := (t2.Save (siblingLeft.setColor black)).1
      t3.rotateRight parent1
    else
      pure t2
  pure (t3.deleteNode node false)

/-- Source `deleteCase5` (lines 616-649): black sibling with a red near
child and black far child — recolor and rotate the sibling to reach the
case-6 shape, then fall through to case 6. -/
def Tree.deleteCase5 (t : Tree) (node : Node) : M Tree := do
  let parent ← req (node.Parent t)
  let sibling ← req (node.sibling t)
  let siblingLeft? := sibling.Left t
  let siblingRight? := sibling.Right t
  let t1 ←
    if bytesCompare node.key parent.LeftKey == 0 &&
        nodeColor (some sibling) && !(nodeColor siblingLeft?) &&
        nodeColor siblingRight? then do
      let sibling1 := sibling.setColor red
      let siblingLeft ← req siblingLeft?
      let siblingLeft1 := siblingLeft.setColor black
      let ta := (t.Save sibling1).1
      let tb := (ta.Save siblingLeft1).1
      tb.rotateRight sibling1
    else if bytesCompare node.key parent.RightKey == 0 &&
        nodeColor (some sibling) && !(nodeColor siblingRight?) &&
        nodeColor siblingLeft? then do
      let sibling1 := sibling.setColor red
      let siblingRight ← req siblingRight?
      let siblingRight1 := siblingRight.setColor black
      let ta := (t.Save sibling1).1
      let tb := (ta.Save siblingRight1).1
      tb.rotateLeft sibling1
    else
      pure t
  t1.deleteCase6 node

/-- Source `deleteCase4` (lines 597-614): red parent with black sibling
and black sibling children — recolor sibling red and parent black and
stop (no physical delete here). -/
def Tree.deleteCase4 (t : Tree) (node : Node) : M Tree := do
  let parent? := node.Parent t
  let sibling ← req (node.sibling t)
  let siblingLeft? := sibling.Left t
  let siblingRight? := sibling.Right t
  if !(nodeColor parent?) && nodeColor (some sibling) &&
      nodeColor siblingLeft? && nodeColor siblingRight? then do
    let parent ← req parent?
    let sibling1 := sibling.setColor red
    let parent1 := parent.setColor black
    let t1 := (t.Save sibling1).1
    pure (t1.Save parent1).1
  else
    t.deleteCase5 node

/-- Source `deleteCase3` (lines 571-595), parametrized by the recursive
re-entry into `deleteCase1` (`rec1`): everything black → recolor the
sibling red, recurse the fixup on the parent, then physically delete the
node's record (subject to the root carve-out). -/
def Tree.deleteCase3 (rec1 : Tree → Node → M Tree) (t : Tree)
    (node : Node) : M Tree := do
  let parent? := node.Parent t
  let sibling ← req (node.sibling t)
  let siblingLeft? := sibling.Left t
  let siblingRight? := sibling.Right t
  if nodeColor parent? && nodeColor (some sibling) &&
      nodeColor siblingLeft? && nodeColor siblingRight? then do
    let sibling1 := sibling.setColor red
    let t1 := (t.Save sibling1).1
    let parent ← req parent?
    let t2 ← rec1 t1 parent
    pure (t2.deleteNode node false)
  else
    t.deleteCase4 node

/-- Source `deleteCase2` (lines 552-569): red sibling — recolor parent
red and sibling black, persist both, rotate the parent toward the node's
side, then continue with case 3. -/
def Tree.deleteCase2 (rec1 : Tree → Node → M Tree) (t : Tree)
    (node : Node) : M Tree := do
  let parent? := node.Parent t
  let sibling? := node.sibling t
  let t1 ←
    if !(nodeColor sibling?) then do
      let parent ← req parent?
      let sibling ← req sibling?
      let parent1 := parent.setColor red
      let sibling1 := sibling.setColor black
      let ta := (t.Save parent1).1
      let tb := (ta.Save sibling1).1
      if bytesCompare node.key parent1.LeftKey == 0 then
        tb.rotateLeft parent1
      else
        tb.rotateRight parent1
    else
      pure t
  t1.deleteCase3 rec1 node

/-- Source `deleteCase1` (lines 543-550): no parent → physically delete
the node's record (subject to the root carve-out) and stop, else case 2.
The fuel bounds the `deleteCase3 → deleteCase1` recursion up the
tree. -/
def Tree.deleteCase1 (t : Tree) : Nat → Node → M Tree
  | 0, _ => .error .fuel
  | fuel + 1, node =>
    if t.db.isEmptyKey node.ParentKey then
      .ok (t.deleteNode node false)
    else
      t.deleteCase2 (fun t' n' => t'.deleteCase1 fuel n') node

/-- Source `Remove` (lines 149-192).  A storage error during the lookup
or a missing record silently no-ops.  When both children are present the
local variable is redirected to the in-order predecessor, but the splice
block is guarded by the **original** node's children, so it is skipped
entirely; the count is still decremented (with `uint64` wraparound). -/
def Tree.Remove (t : Tree) (key : Key) (fuel : Nat) : M Tree := do
  match t.GetNode key with
  | .error _ => pure t
  | .ok none => pure t
  | .ok (some node0) => do
    let left : Option Node :=
      if t.db.isEmptyKey node0.LeftKey then none else node0.Left t
    let right : Option Node :=
      if t.db.isEmptyKey node0.RightKey then none else node0.Right t
    let node ←
      match left, right with
      | some l, some _ => t.maximumNode fuel l
      | _, _ => pure node0
    let t1 ←
      match left, right with
      | some _, some _ => pure t
      | _, _ => do
        let child : Option Node := if right.isNone then left else right
        let (ta, node1) ←
          if node.item.color then do
            let node1 := node.setColor (nodeColor child)
            let ta := (t.Save node1).1
            let tb ← ta.deleteCase1 fuel node1
            pure (tb, node1)
          else
            pure (t, node)
        let (tb, child?) ← ta.replaceNode node1 child
        match child? with
        | some c =>
          if tb.db.isEmptyKey node1.ParentKey then
            pure (tb.Save (c.setColor black)).1
          else
            pure tb
        | none => pure tb
    pure { t1 with size := (t1.size + (2 ^ 64 - 1)) % 2 ^ 64 }

/-- The loop of source `Floor` (lines 254-273): descend from the root,
remembering the last node passed while moving right; equal key returns
immediately.  `none` as the running node ends the loop (a nil load,
including the empty sentinel child, is not a panic here). -/
def Tree.floorLoop (t : Tree) (key : Key) :
    Nat → Option Node → Option Node → M (Option Node)
  | 0, _, _ => .error .fuel
  | _ + 1, none, floorAcc => .ok floorAcc
  | fuel + 1, some node, floorAcc =>
    let compare := bytesCompare key node.key
    if compare == 0 then .ok (some node)
    else if compare < 0 then t.floorLoop key fuel (node.Left t) floorAcc
    else t.floorLoop key fuel (node.Right t) (some node)

/-- Source `Floor`: the found flag is set exactly when a candidate was
recorded (or an exact match returned). -/
def Tree.Floor (t : Tree) (key : Key) (fuel : Nat) :
    M (Option Node × Bool) := do
  match ← t.floorLoop key fuel t.Root none with
  | some n => pure (some n, true)
  | none => pure (none, false)

/-- The loop of source `Ceiling` (lines 283-302), mirror of the floor
loop. -/
def Tree.ceilingLoop (t : Tree) (key : Key) :
    Nat → Option Node → Option Node → M (Option Node)
  | 0, _, _ => .error .fuel
  | _ + 1, none, ceilingAcc => .ok ceilingAcc
  | fuel + 1, some node, ceilingAcc =>
    let compare := bytesCompare key node.key
    if compare == 0 then .ok (some node)
    else if compare < 0 then t.ceilingLoop key fuel (node.Left t) (some node)
    else t.ceilingLoop key fuel (node.Right t) ceilingAcc

/-- Source `Ceiling`. -/
def Tree.Ceiling (t : Tree) (key : Key) (fuel : Nat) :
    M (Option Node × Bool) := do
  match ← t.ceilingLoop key fuel t.Root none with
  | some n => pure (some n, true)
  | none => pure (none, false)

/-- Modelled from the spec: the in-order key sequence of the structure
reachable from a key reference (the lazy in-order cursor, materialized).
A reference that resolves to no record contributes nothing. -/
def Tree.inorderKeys (t : Tree) : Nat → Key → M (List Key)
  | 0, _ => .error .fuel
  | fuel + 1, k =>
    match t.nodeGet k with
    | none => .ok []
    | some n => do
      let l ← t.inorderKeys fuel n.LeftKey
      let r ← t.inorderKeys fuel n.RightKey
      pure (l ++ [k] ++ r)

/-- Stated from the spec's words for the lookup claim: a single
comparator-driven root-to-leaf descent from the current root reference,
returning the node found, or `none` when the descent falls off the
tree. -/
def Tree.descentFind (t : Tree) (key : Key) :
    Nat → Option Node → M (Option Node)
  | 0, _ => .error .fuel
  | _ + 1, none => .ok none
  | fuel + 1, some node =>
    let compare := bytesCompare key node.key
    if compare == 0 then .ok (some node)
    else if compare < 0 then t.descentFind key fuel (node.Left t)
    else t.descentFind key fuel (node.Right t)

/-- Reified in-memory view of the structure stored in the collaborator:
the storage graph reachable from a key reference, as an inductive binary
tree.  Used to state structural hypotheses (search ordering) for the
traversal claims. -/
inductive RBT where
  | leaf
  | node (l : RBT) (key : Key) (item : Item) (r : RBT)
deriving Repr, DecidableEq

/-- Reify the storage graph below a key reference.  The sentinel is a
leaf; a dangling or failing reference, a cycle deeper than the fuel, or
a corrupt shape yields `none`. -/
def Tree.reify (t : Tree) : Nat → Key → Option RBT
  | 0, _ => none
  | fuel + 1, k =>
    if t.db.isEmptyKey k then some .leaf
    else
      match t.nodeGet k with
      | none => none
      | some n => do
        let l ← t.reify fuel n.LeftKey
        let r ← t.reify fuel n.RightKey
        pure (.node l k n.item r)

/-- In-order key sequence of a reified tree. -/
def RBT.inorder : RBT → List Key
  | .leaf => []
  | .node l k _ r => l.inorder ++ [k] ++ r.inorder

/-- Number of nodes of a reified tree (a fuel bound for the descent
loops). -/
def RBT.numNodes : RBT → Nat
  | .leaf => 0
  | .node l _ _ r => l.numNodes + r.numNodes + 1

/-- All keys of a reified tree satisfy a predicate. -/
def RBT.allKeys (p : Key → Bool) : RBT → Bool
  | .leaf => true
  | .node l k _ r => p k && l.allKeys p && r.allKeys p

/-- Search-tree ordering under the bytes comparator: every key in a left
subtree is smaller, every key in a right subtree larger. -/
def RBT.isBST : RBT → Bool
  | .leaf => true
  | .node l k _ r =>
      l.allKeys (fun x => bytesCompare x k < 0) &&
      r.allKeys (fun x => bytesCompare k x < 0) &&
      l.isBST && r.isBST

/-- The floor loop replayed structurally on a reified tree. -/
def RBT.floorAux (key : Key) : RBT → Option Node → Option Node
  | .leaf, acc => acc
  | .node l k it r, acc =>
    let compare := bytesCompare key k
    if compare == 0 then some ⟨k, it⟩
    else if compare < 0 then l.floorAux key acc
    else r.floorAux key (some ⟨k, it⟩)

/-- The ceiling loop replayed structurally on a reified tree. -/
def RBT.ceilingAux (key : Key) : RBT → Option Node → Option Node
  | .leaf, acc => acc
  | .node l k it r, acc =>
    let compare := bytesCompare key k
    if compare == 0 then some ⟨k, it⟩
    else if compare < 0 then l.ceilingAux key (some ⟨k, it⟩)
    else r.ceilingAux key acc

/-- Largest key of a list under the bytes comparator. -/
def keyMax? : List Key → Option Key
  | [] => none
  | x :: xs =>
    match keyMax? xs with
    | none => some x
    | some m => if bytesCompare x m < 0 then some m else some x

/-- Smallest key of a list under the bytes comparator. -/
def keyMin? : List Key → Option Key
  | [] => none
  | x :: xs =>
    match keyMin? xs with
    | none => some x
    | some m => if bytesCompare m x < 0 then some m else some x

/-- Oracle from the spec's words: the largest stored key that is smaller
than or equal to the probe. -/
def floorOracle (keys : List Key) (k : Key) : Option Key :=
  keyMax? (keys.filter (fun x => decide (bytesCompare x k ≤ 0)))

/-- Oracle from the spec's words: the smallest stored key that is larger
than or equal to the probe. -/
def ceilingOracle (keys : List Key) (k : Key) : Option Key :=
  keyMin? (keys.filter (fun x => decide (0 ≤ bytesCompare x k)))

/-- Scenario helper: one `Put` of a single-byte key (value equal to the
key), keeping the prior state on a crash; every build step used below is
verified to return `.ok` by the scenario theorems. -/
def Tree.putK (t : Tree) (k : Nat) : Tree :=
  match t.Put [k] [k] 99 with
  | .ok (t', _) => t'
  | .error _ => t

/-- The spec's concrete scenario tree: keys 50, 30, 70, 20, 40, 60, 80
inserted in that order. -/
def sevenTree : Tree := [50, 30, 70, 20, 40, 60, 80].foldl Tree.putK emptyTree

/-- A three-key tree whose root has two children: 2, then 1, then 3. -/
def threeTree : Tree := [2, 1, 3].foldl Tree.putK emptyTree

/-- The state after inserting 50 then 30 into the empty tree. -/
def fiftyThirtyTree : Tree := [50, 30].foldl Tree.putK emptyTree

/-- The spec's floor/ceiling key set, inserted in ascending order. -/
def sixTree : Tree := [20, 30, 40, 60, 70, 80].foldl Tree.putK emptyTree

/-- The reified form of `sixTree`. -/
def sixReified : RBT := (sixTree.reify 99 sixTree.rootKey).getD .leaf

/-- A single-key tree: `Put([5], [9])` on the empty tree. -/
def oneTree : Tree :=
  match emptyTree.Put [5] [9] 9 with
  | .ok (t, _) => t
  | .error _ => emptyTree

/-- The single-key tree after `Clear()`: transient root and count reset,
the record for key 5 still in storage. -/
def clearedTree : Tree := oneTree.Clear

/-- An empty tree over a storage whose store of key 7 fails. -/
def storeFailTree : Tree :=
  { emptyTree with db := { emptyTree.db with storeFails := [[7]] } }

/-- The result of `Put([3], [4])` on the empty tree: the stored black
root record and the Go `nil` error.  Used as a concrete witness
input. -/
def putOkPair : Tree × Option Unit :=
  (⟨⟨[([3], ⟨[4], black, EmptyKey, EmptyKey, EmptyKey⟩)], [], [], 0⟩, [3], 1⟩,
    none)

/-!
Theorems.  Each claim of the specification audit is settled by exactly
one theorem below (plus a witness or counterexample where required).
-/

/-- Claim C1.  The spec says `Remove(50)` on the tree built from
inserting [50, 30, 70, 20, 40, 60, 80] swaps the target with its
in-order predecessor and yields the in-order sequence
[20, 30, 40, 60, 70, 80].  The code does not: after redirecting a local
variable to the predecessor, the splice block is guarded by the original
node's children (`left == nil || right == nil`), which both exist, so no
structural change or storage write happens at all; 50 is still in the
in-order sequence and only the count dropped to 6.  (The build itself is
sane: the first conjunct shows the scenario tree holds all seven keys in
order before the removal.) -/
theorem remove_two_children_is_noop :
    sevenTree.inorderKeys 99 sevenTree.rootKey =
      .ok [[20], [30], [40], [50], [60], [70], [80]] ∧
    (sevenTree.Remove [50] 99).map
        (fun t' => (t'.inorderKeys 99 t'.rootKey, t'.Size)) =
      .ok (.ok [[20], [30], [40], [50], [60], [70], [80]], 6) :=
  ⟨rfl, rfl⟩

/-- Claim C2.  The spec's invariant suite includes: after any sequence
of Put/Remove, the in-order key sequence equals the sorted set of
inserted-and-not-removed keys.  Counterexample sequence:
Put 2, Put 1, Put 3, Remove 2.  The oracle sequence is [1, 3], but the
code's in-order sequence is still [1, 2, 3] (the two-children removal is
a structural no-op), while the count claims 2 elements. -/
theorem invariants_broken_by_remove :
    (threeTree.Remove [2] 99).map
        (fun t' => (t'.inorderKeys 99 t'.rootKey, t'.Size)) =
      .ok (.ok [[1], [2], [3]], 2) ∧
    .ok [[1], [2], [3]] ≠ (Except.ok [[1], [3]] : M (List Key)) :=
  ⟨rfl, fun h => absurd (Except.ok.inj h) (by decide)⟩

/-- Claim C4.  The spec's round-trip property says that from every prior
tree state, `Put(k, v)` then `Get(k)` returns `(v, true)`.  From the
reachable state built by Put 50 then Put 30 (both succeed — first
conjunct), `Put(40, v)` nil-panics: the zig-zag fixup (`insertCase4`)
rotates the parent and then follows the stale in-memory inserted node's
empty left reference, handing a nil node to `insertCase5`, which
dereferences it.  `Put` therefore never completes and the round trip
never returns `(v, true)`. -/
theorem put_zigzag_panics :
    ([50, 30].foldlM
        (fun t k => (Tree.Put t [k] [k] 99).map Prod.fst) emptyTree :
      M Tree) = .ok fiftyThirtyTree ∧
    fiftyThirtyTree.Put [40] [40] 99 = .error .panic :=
  ⟨rfl, rfl⟩

/-- Claim C7, counterexample.  On a storage whose store of key 7 fails,
`Put([7], [1])` completes and returns the Go `nil` error (first
component `none`), even though a store failed during the call (ghost
fail counter 1) and the record was never written: the claimed
propagation of the storage error to the caller does not happen. -/
theorem put_swallows_store_error :
    (storeFailTree.Put [7] [1] 9).map
        (fun r => (r.2, r.1.db.failCount, lookupRec r.1.db.records [7])) =
      .ok (none, 1, none) :=
  rfl

/-- Claim C6, counterexample.  After `Put([5], [9])` and `Clear()` the
record for key 5 is still in storage but unreachable from the (now
empty) root reference: the comparator descent finds nothing, yet both
`Get` and `Has` report the key as found, because they query storage
directly rather than descending from the root. -/
theorem get_has_not_descent :
    clearedTree.descentFind [5] 99 clearedTree.Root = .ok none ∧
    clearedTree.Get [5] = (some [9], true) ∧
    (clearedTree.Has [5]).1 = true :=
  ⟨rfl, rfl, rfl⟩

/-- The bytes comparator is reflexive. -/
theorem bytesCompare_self (a : Key) : bytesCompare a a = 0 := by
  induction a with
  | nil => rfl
  | cons x xs ih => simp [bytesCompare, ih]

/-- Keys comparing equal are equal. -/
theorem bytesCompare_eq_zero : ∀ {a b : Key}, bytesCompare a b = 0 → a = b := by
  intro a
  induction a with
  | nil =>
    intro b h
    cases b with
    | nil => rfl
    | cons y ys => simp [bytesCompare] at h
  | cons x xs ih =>
    intro b h
    cases b with
    | nil => simp [bytesCompare] at h
    | cons y ys =>
      simp only [bytesCompare] at h
      by_cases hxy : x < y
      · rw [if_pos hxy] at h; omega
      · by_cases hyx : y < x
        · rw [if_neg hxy, if_pos hyx] at h; omega
        · rw [if_neg hxy, if_neg hyx] at h
          have hx : x = y := by omega
          rw [hx, ih h]

/-- Swapping the arguments negates the comparator. -/
theorem bytesCompare_swap (a : Key) : ∀ b : Key,
    bytesCompare b a = -bytesCompare a b := by
  induction a with
  | nil => intro b; cases b <;> simp [bytesCompare]
  | cons x xs ih =>
    intro b
    cases b with
    | nil => simp [bytesCompare]
    | cons y ys =>
      simp only [bytesCompare]
      by_cases hxy : x < y <;> by_cases hyx : y < x <;>
        simp [hxy, hyx, ih ys] <;> omega

/-- The strict order induced by the comparator is transitive. -/
theorem bytesCompare_lt_trans : ∀ (a b c : Key),
    bytesCompare a b < 0 → bytesCompare b c < 0 → bytesCompare a c < 0 := by
  intro a
  induction a with
  | nil =>
    intro b c hab hbc
    cases c with
    | nil =>
      cases b with
      | nil => simp [bytesCompare] at hab
      | cons y ys => simp [bytesCompare] at hbc
    | cons z zs => simp [bytesCompare]
  | cons x xs ih =>
    intro b c hab hbc
    cases b with
    | nil => simp [bytesCompare] at hab
    | cons y ys =>
      cases c with
      | nil => simp [bytesCompare] at hbc
      | cons z zs =>
        simp only [bytesCompare] at hab hbc ⊢
        by_cases hxy : x < y
        · by_cases hyz : y < z
          · rw [if_pos (Nat.lt_trans hxy hyz)]; norm_num
          · by_cases hzy : z < y
            · rw [if_neg hyz, if_pos hzy] at hbc; omega
            · have hxz : x < z := by omega
              rw [if_pos hxz]; norm_num
        · by_cases hyx : y < x
          · rw [if_neg hxy, if_pos hyx] at hab; omega
          · rw [if_neg hxy, if_neg hyx] at hab
            by_cases hyz : y < z
            · have hxz : x < z := by omega
              rw [if_pos hxz]; norm_num
            · by_cases hzy : z < y
              · rw [if_neg hyz, if_pos hzy] at hbc; omega
              · rw [if_neg hyz, if_neg hzy] at hbc
                have hxz1 : ¬x < z := by omega
                have hzx1 : ¬z < x := by omega
                rw [if_neg hxz1, if_neg hzx1]
                exact ih ys zs hab hbc

/-- Negative comparison one way is positive the other way. -/
theorem bytesCompare_lt_iff (a b : Key) :
    bytesCompare a b < 0 ↔ 0 < bytesCompare b a := by
  rw [bytesCompare_swap a b]; omega

/-- A key is gone from the association list after its removal. -/
theorem lookupRec_removeRec_self (rs : List (Key × Item)) (k : Key) :
    lookupRec (removeRec rs k) k = none := by
  induction rs with
  | nil => rfl
  | cons p rest ih =>
    obtain ⟨ki, it⟩ := p
    simp only [removeRec]
    by_cases h : (ki == k) = true
    · rw [if_pos h]; exact ih
    · rw [if_neg h]
      simp only [lookupRec]
      rw [if_neg h]
      exact ih

/-- Other keys are untouched by a removal from the association list. -/
theorem lookupRec_removeRec_ne (rs : List (Key × Item)) (k k' : Key)
    (hne : k' ≠ k) :
    lookupRec (removeRec rs k) k' = lookupRec rs k' := by
  induction rs with
  | nil => rfl
  | cons p rest ih =>
    obtain ⟨ki, it⟩ := p
    simp only [removeRec, lookupRec]
    by_cases h : (ki == k) = true
    · rw [if_pos h]
      have hki : ki = k := by simpa using h
      have : (ki == k') = false := by
        simp [hki]
        exact fun hc => hne hc.symm
      rw [ih, if_neg (by simp [this])]
    · rw [if_neg h]
      simp only [lookupRec]
      rw [ih]

/-- Claim C9.  In `deleteNode`, the physical storage delete is skipped
if and only if the element count exceeds one and the node's key equals
the current root key; in that case the state (including the stored
record) is completely unchanged, and in every other case the record is
removed from storage while all other records, the root reference and
the count are untouched. -/
theorem deleteNode_root_carve_out (t : Tree) (n : Node) (force : Bool) :
    ((t.size > 1 ∧ bytesCompare n.key t.rootKey = 0) →
      t.deleteNode n force = t) ∧
    (¬(t.size > 1 ∧ bytesCompare n.key t.rootKey = 0) →
      (t.deleteNode n force).rootKey = t.rootKey ∧
      (t.deleteNode n force).size = t.size ∧
      lookupRec (t.deleteNode n force).db.records n.key = none ∧
      ∀ k', k' ≠ n.key →
        lookupRec (t.deleteNode n force).db.records k' =
          lookupRec t.db.records k') := by
  constructor
  · rintro ⟨h1, h2⟩
    unfold Tree.deleteNode
    rw [if_pos (by simp [h1, h2])]
  · intro h
    unfold Tree.deleteNode
    rw [if_neg (by simpa [Decidable.not_and_iff_or_not, -not_and] using h)]
    refine ⟨rfl, rfl, ?_, ?_⟩
    · exact lookupRec_removeRec_self t.db.records n.key
    · intro k' hk'
      exact lookupRec_removeRec_ne t.db.records n.key k' hk'

/-- Claim C8.  `Remove(k)` with no record for `k` in storage (including
the sentinel key) or with a failing storage load of `k` is a complete
no-op: the returned state is the input state, records, root reference
and count included. -/
theorem remove_missing_or_failing_noop (t : Tree) (k : Key) (fuel : Nat)
    (h : (k == EmptyKey) = true ∨ t.db.loadFails.contains k = true ∨
      lookupRec t.db.records k = none) :
    t.Remove k fuel = .ok t := by
  have hget : t.GetNode k = .error () ∨ t.GetNode k = .ok none := by
    unfold Tree.GetNode DB.get
    by_cases h1 : (k == EmptyKey) = true
    · rw [if_pos h1]; exact Or.inr rfl
    · rw [if_neg h1]
      by_cases h2 : t.db.loadFails.contains k = true
      · rw [if_pos h2]; exact Or.inl rfl
      · rw [if_neg h2]
        rcases h with h | h | h
        · exact absurd h h1
        · exact absurd h h2
        · rw [h]; exact Or.inr rfl
  unfold Tree.Remove
  rcases hget with hg | hg <;> rw [hg] <;> rfl

/-- The second component of a completed `finishInsert` is the Go `nil`
error. -/
theorem finishInsert_err_none (t : Tree) (n : Node) (fuel : Nat)
    (r : Tree × Option Unit) (h : t.finishInsert n fuel = .ok r) :
    r.2 = none := by
  unfold Tree.finishInsert at h
  cases hc : t.insertCase1 fuel n with
  | error e => rw [hc] at h; simp [Bind.bind, Except.bind] at h
  | ok p =>
    obtain ⟨t1, i1⟩ := p
    rw [hc] at h
    simp only [Bind.bind, Except.bind, pure, Except.pure] at h
    cases h
    rfl

/-- Claim C7, amended.  `Put` never returns a storage error: whenever it
completes, the returned Go error is `nil`, whatever stores failed along
the way. -/
theorem put_never_returns_error (t : Tree) (k : Key) (v : Value)
    (fuel : Nat) (r : Tree × Option Unit) (h : t.Put k v fuel = .ok r) :
    r.2 = none := by
  unfold Tree.Put at h
  by_cases hroot : t.db.isEmptyKey t.rootKey = true
  · rw [if_pos hroot] at h
    exact finishInsert_err_none _ _ _ _ h
  · rw [if_neg hroot] at h
    simp only [Bind.bind, Except.bind] at h
    cases hr : req t.Root with
    | error e => rw [hr] at h; cases h
    | ok root =>
      rw [hr] at h
      dsimp only at h
      cases hl : t.putLoop k v fuel root with
      | error e => rw [hl] at h; cases h
      | ok step =>
        rw [hl] at h
        cases step with
        | done t1 =>
          simp only [pure, Except.pure] at h
          cases h
          rfl
        | attached t1 inserted parentKey =>
          exact finishInsert_err_none _ _ _ _ h

/-- A node produced by `nodeGet` is stored under its own key. -/
theorem nodeGet_self (t : Tree) (k : Key) (n : Node)
    (h : t.nodeGet k = some n) : n.key = k ∧ t.nodeGet n.key = some n := by
  unfold Tree.nodeGet Tree.GetNode at h ⊢
  cases hg : t.db.get k with
  | error e => rw [hg] at h; cases h
  | ok r =>
    rw [hg] at h
    cases r with
    | none => cases h
    | some it =>
      cases h
      exact ⟨rfl, by rw [hg]⟩

/-- Every node found by the comparator descent is the storage record of
the probed key. -/
theorem descentFind_sound (t : Tree) (key : Key) :
    ∀ (fuel : Nat) (start : Option Node),
      (∀ n0, start = some n0 → t.nodeGet n0.key = some n0) →
      ∀ n, t.descentFind key fuel start = .ok (some n) →
        t.nodeGet key = some n := by
  intro fuel
  induction fuel with
  | zero =>
    intro start hinv n h
    simp [Tree.descentFind] at h
  | succ fuel ih =>
    intro start hinv n h
    cases start with
    | none => simp [Tree.descentFind] at h
    | some node =>
      have hnode := hinv node rfl
      simp only [Tree.descentFind] at h
      by_cases h0 : (bytesCompare key node.key == 0) = true
      · rw [if_pos h0] at h
        cases h
        rw [show key = n.key from bytesCompare_eq_zero (by simpa using h0)]
        exact hnode
      · rw [if_neg h0] at h
        by_cases hlt : bytesCompare key node.key < 0
        · rw [if_pos hlt] at h
          exact ih (node.Left t)
            (fun n0 h0' => (nodeGet_self t node.LeftKey n0 h0').2) n h
        · rw [if_neg hlt] at h
          exact ih (node.Right t)
            (fun n0 h0' => (nodeGet_self t node.RightKey n0 h0').2) n h

/-- Claim C6, amended.  `Get` and `Has` are direct storage lookups, so
they agree with the comparator-driven root-to-leaf descent whenever the
descent finds a node for the probed key: `Get` returns that node's
value with found = true, and `Has` reports true. -/
theorem get_has_agree_with_descent (t : Tree) (key : Key) (fuel : Nat)
    (n : Node) (h : t.descentFind key fuel t.Root = .ok (some n)) :
    t.Get key = (some n.item.value, true) ∧ (t.Has key).1 = true := by
  have hfound : t.nodeGet key = some n :=
    descentFind_sound t key fuel t.Root
      (fun n0 h0 => (nodeGet_self t t.rootKey n0 h0).2) n h
  unfold Tree.nodeGet at hfound
  constructor
  · unfold Tree.Get
    cases hg : t.GetNode key with
    | error e => rw [hg] at hfound; cases hfound
    | ok r =>
      rw [hg] at hfound
      cases r with
      | none => cases hfound
      | some n' => cases hfound; rfl
  · unfold Tree.GetNode at hfound
    unfold Tree.Has DB.has
    cases hg : t.db.get key with
    | error e => rw [hg] at hfound; cases hfound
    | ok r =>
      rw [hg] at hfound
      unfold DB.get at hg
      by_cases h1 : (key == EmptyKey) = true
      · rw [if_pos h1] at hg; cases hg; cases hfound
      · rw [if_neg h1] at hg
        by_cases h2 : t.db.loadFails.contains key = true
        · rw [if_pos h2] at hg; cases hg
        · rw [if_neg h2] at hg
          rw [if_neg h1, if_neg h2]
          cases hg
          cases hr : lookupRec t.db.records key with
          | none => rw [hr] at hfound; cases hfound
          | some it => simp [hr]

/-- Witness for claim C7's amended theorem: a concrete completed `Put`
returns the `nil` error. -/
theorem put_never_returns_error_witness : putOkPair.2 = none :=
  put_never_returns_error emptyTree [3] [4] 9 putOkPair rfl

/-- Witness for claim C8's theorem: removing a key absent from the
empty tree's storage is a no-op. -/
theorem remove_missing_or_failing_noop_witness :
    emptyTree.Remove [9] 5 = .ok emptyTree :=
  remove_missing_or_failing_noop emptyTree [9] 5 (Or.inr (Or.inr rfl))

/-- Witness for claim C9's theorem: deleting the scenario tree's root
record while seven elements remain is skipped. -/
theorem deleteNode_root_carve_out_witness :
    sevenTree.deleteNode ⟨[50], ⟨[50], black, [30], [70], EmptyKey⟩⟩ false =
      sevenTree :=
  (deleteNode_root_carve_out sevenTree
      ⟨[50], ⟨[50], black, [30], [70], EmptyKey⟩⟩ false).1
    ⟨by decide, by decide⟩

/-- Claim C5.  For every non-sentinel key and pair of values, starting
from the empty tree, `Put(k, v1)` stores a single black root record for
k with value v1, and the second `Put(k, v2)` takes the equal-key branch:
the record's value is overwritten in place and nothing else changes —
same single record for k, same root reference, same count (no
rebalancing, no count change). -/
theorem put_put_overwrites_in_place (k : Key) (v1 v2 : Value)
    (h : (k == EmptyKey) = false) :
    ∃ s1 : Tree,
      emptyTree.Put k v1 2 = .ok (s1, none) ∧
      s1.db.records = [(k, ⟨v1, black, EmptyKey, EmptyKey, EmptyKey⟩)] ∧
      s1.size = 1 ∧ s1.rootKey = k ∧
      s1.Put k v2 2 =
        .ok ({ s1 with db := { s1.db with
          records := [(k, ⟨v2, black, EmptyKey, EmptyKey, EmptyKey⟩)] } },
          none) := by
  refine ⟨⟨⟨[(k, ⟨v1, black, EmptyKey, EmptyKey, EmptyKey⟩)], [], [], 0⟩, k, 1⟩,
    rfl, rfl, rfl, rfl, ?_⟩
  simp only [Tree.Put, Tree.Root, Tree.nodeGet, Tree.GetNode, DB.get,
    DB.isEmptyKey, DB.put, Tree.putLoop, Tree.Save, lookupRec, insertRec,
    req, h, bytesCompare_self, beq_self_eq_true, List.contains,
    List.elem_nil, Bind.bind, Except.bind, pure, Except.pure, if_true,
    if_false, Bool.false_eq_true, ite_false, ite_true]

/-- Witness for claim C5's theorem at a concrete key and values. -/
theorem put_put_overwrites_in_place_witness :
    ∃ s1 : Tree,
      emptyTree.Put [6] [1] 2 = .ok (s1, none) ∧
      s1.db.records = [([6], ⟨[1], black, EmptyKey, EmptyKey, EmptyKey⟩)] ∧
      s1.size = 1 ∧ s1.rootKey = [6] ∧
      s1.Put [6] [2] 2 =
        .ok ({ s1 with db := { s1.db with
          records := [([6], ⟨[2], black, EmptyKey, EmptyKey, EmptyKey⟩)] } },
          none) :=
  put_put_overwrites_in_place [6] [1] [2] (by decide)

/-- Witness for claim C6's amended theorem: on the scenario tree the
descent finds key 40, and `Get`/`Has` agree. -/
theorem get_has_agree_with_descent_witness :
    sevenTree.Get [40] = (some [40], true) ∧ (sevenTree.Has [40]).1 = true :=
  get_has_agree_with_descent sevenTree [40] 99
    ⟨[40], ⟨[40], red, EmptyKey, EmptyKey, [30]⟩⟩ rfl

/-- The sentinel reference resolves to no node. -/
theorem nodeGet_of_empty (t : Tree) (k : Key)
    (h : t.db.isEmptyKey k = true) : t.nodeGet k = none := by
  unfold Tree.nodeGet Tree.GetNode DB.get
  rw [if_pos (by simpa [DB.isEmptyKey] using h)]

/-- A reference reifying to a leaf is the sentinel. -/
theorem reify_leaf_inv (t : Tree) (fuel : Nat) (k : Key)
    (h : t.reify fuel k = some .leaf) : t.db.isEmptyKey k = true := by
  cases fuel with
  | zero => simp [Tree.reify] at h
  | succ f =>
    simp only [Tree.reify] at h
    by_cases he : t.db.isEmptyKey k = true
    · exact he
    · rw [if_neg he] at h
      cases hn : t.nodeGet k with
      | none => rw [hn] at h; cases h
      | some n =>
        rw [hn] at h
        dsimp only [Option.bind, Bind.bind] at h
        cases hl : t.reify f n.LeftKey with
        | none => rw [hl] at h; cases h
        | some lt' =>
          rw [hl] at h
          dsimp only [Option.bind] at h
          cases hr : t.reify f n.RightKey with
          | none => rw [hr] at h; cases h
          | some rt' => rw [hr] at h; cases h

/-- Inversion of a node-shaped reification: the key matches, the record
is stored, and both child references reify with one tick less fuel. -/
theorem reify_node_inv (t : Tree) (fuel : Nat) (k : Key) (l r : RBT)
    (kk : Key) (it : Item) (h : t.reify fuel k = some (.node l kk it r)) :
    kk = k ∧ t.nodeGet k = some ⟨k, it⟩ ∧
      ∃ f, fuel = f + 1 ∧
        t.reify f it.left = some l ∧ t.reify f it.right = some r := by
  cases fuel with
  | zero => simp [Tree.reify] at h
  | succ f =>
    simp only [Tree.reify] at h
    by_cases he : t.db.isEmptyKey k = true
    · rw [if_pos he] at h; cases h
    · rw [if_neg he] at h
      cases hn : t.nodeGet k with
      | none => rw [hn] at h; cases h
      | some n =>
        rw [hn] at h
        dsimp only [Option.bind, Bind.bind] at h
        cases hl : t.reify f n.LeftKey with
        | none => rw [hl] at h; cases h
        | some lt' =>
          rw [hl] at h
          dsimp only [Option.bind] at h
          cases hr : t.reify f n.RightKey with
          | none => rw [hr] at h; cases h
          | some rt' =>
            rw [hr] at h
            dsimp only [Option.bind, pure] at h
            have hn' := (nodeGet_self t k n hn).1
            cases h
            refine ⟨rfl, ?_, f, rfl, hl, hr⟩
            obtain ⟨nk, nit⟩ := n
            simp only [Node.key] at hn'
            subst hn'
            simp [hn]

/-- A key selected by `keyMax?` belongs to the list. -/
theorem keyMax?_mem : ∀ (xs : List Key) (m : Key),
    keyMax? xs = some m → m ∈ xs := by
  intro xs
  induction xs with
  | nil => intro m h; cases h
  | cons x xs ih =>
    intro m h
    simp only [keyMax?] at h
    cases hx : keyMax? xs with
    | none => rw [hx] at h; cases h; exact List.mem_cons_self x xs
    | some m' =>
      rw [hx] at h
      dsimp only at h
      by_cases hc : bytesCompare x m' < 0
      · rw [if_pos hc] at h; cases h; exact List.mem_cons_of_mem x (ih _ hx)
      · rw [if_neg hc] at h; cases h; exact List.mem_cons_self x xs

/-- Prepending keys smaller than the current maximum leaves it. -/
theorem keyMax?_append_left_lt (xs rest : List Key) (m : Key)
    (hrest : keyMax? rest = some m)
    (hall : ∀ x ∈ xs, bytesCompare x m < 0) :
    keyMax? (xs ++ rest) = some m := by
  induction xs with
  | nil => simpa using hrest
  | cons x xs ih =>
    simp only [List.cons_append, keyMax?, List.append_eq]
    rw [ih (fun y hy => hall y (List.mem_cons_of_mem x hy))]
    dsimp only
    rw [if_pos (hall x (List.mem_cons_self x xs))]

/-- Maximum of a strictly ordered split list: keys below `kk`, then
`kk`, then keys above `kk` — the maximum is the maximum of the upper
part, or `kk` when it is empty. -/
theorem keyMax?_mid (xs ys : List Key) (kk : Key)
    (hxs : ∀ x ∈ xs, bytesCompare x kk < 0)
    (hys : ∀ y ∈ ys, bytesCompare kk y < 0) :
    keyMax? (xs ++ kk :: ys) =
      match keyMax? ys with
      | none => some kk
      | some m => some m := by
  have hmid : keyMax? (kk :: ys) =
      match keyMax? ys with
      | none => some kk
      | some m => some m := by
    simp only [keyMax?]
    cases hy : keyMax? ys with
    | none => rfl
    | some m =>
      dsimp only
      rw [if_pos (hys m (keyMax?_mem ys m hy))]
  cases hy : keyMax? ys with
  | none =>
    rw [hy] at hmid
    exact keyMax?_append_left_lt xs (kk :: ys) kk hmid hxs
  | some m =>
    rw [hy] at hmid
    exact keyMax?_append_left_lt xs (kk :: ys) m hmid
      (fun x hx =>
        bytesCompare_lt_trans x kk m (hxs x hx)
          (hys m (keyMax?_mem ys m hy)))

/-- A key selected by `keyMin?` belongs to the list. -/
theorem keyMin?_mem : ∀ (xs : List Key) (m : Key),
    keyMin? xs = some m → m ∈ xs := by
  intro xs
  induction xs with
  | nil => intro m h; cases h
  | cons x xs ih =>
    intro m h
    simp only [keyMin?] at h
    cases hx : keyMin? xs with
    | none => rw [hx] at h; cases h; exact List.mem_cons_self x xs
    | some m' =>
      rw [hx] at h
      dsimp only at h
      by_cases hc : bytesCompare m' x < 0
      · rw [if_pos hc] at h; cases h; exact List.mem_cons_of_mem x (ih _ hx)
      · rw [if_neg hc] at h; cases h; exact List.mem_cons_self x xs

/-- Minimum of a strictly ordered split list: the minimum is the
minimum of the lower part, or `kk` when it is empty. -/
theorem keyMin?_mid (xs ys : List Key) (kk : Key)
    (hxs : ∀ x ∈ xs, bytesCompare x kk < 0)
    (hys : ∀ y ∈ ys, bytesCompare kk y < 0) :
    keyMin? (xs ++ kk :: ys) =
      match keyMin? xs with
      | none => some kk
      | some m => some m := by
  have hmid : keyMin? (kk :: ys) = some kk := by
    simp only [keyMin?]
    cases hy : keyMin? ys with
    | none => rfl
    | some m =>
      have hm : bytesCompare kk m < 0 := hys m (keyMin?_mem ys m hy)
      dsimp only
      rw [if_neg (by rw [bytesCompare_swap]; omega)]
  induction xs with
  | nil => simpa using hmid
  | cons x xs ih =>
    simp only [List.cons_append, keyMin?, List.append_eq]
    rw [ih (fun y hy => hxs y (List.mem_cons_of_mem x hy))]
    have hxkk : bytesCompare x kk < 0 := hxs x (List.mem_cons_self x xs)
    cases hx : keyMin? xs with
    | none =>
      dsimp only
      rw [if_neg (by rw [bytesCompare_swap]; omega)]
    | some m =>
      dsimp only
      by_cases hc : bytesCompare m x < 0 <;> simp [hc]

/-- Keys collected by `allKeys` really are all in-order keys. -/
theorem allKeys_mem (p : Key → Bool) : ∀ (tr : RBT),
    tr.allKeys p = true → ∀ x ∈ tr.inorder, p x = true := by
  intro tr
  induction tr with
  | leaf => intro _ x hx; simp [RBT.inorder] at hx
  | node l kk it r ihl ihr =>
    intro h x hx
    simp only [RBT.allKeys, Bool.and_eq_true] at h
    obtain ⟨⟨hp, hl⟩, hr⟩ := h
    simp only [RBT.inorder, List.mem_append, List.mem_singleton] at hx
    rcases hx with (hx | hx) | hx
    · exact ihl hl x hx
    · subst hx; exact hp
    · exact ihr hr x hx

/-- The floor loop on the store agrees with its structural replay on the
reified tree, given enough fuel. -/
theorem floorLoop_reify (t : Tree) (key : Key) : ∀ (tr : RBT) (k0 : Key)
    (fuel : Nat), t.reify fuel k0 = some tr →
    ∀ (fuel2 : Nat) (acc : Option Node), tr.numNodes + 1 ≤ fuel2 →
      t.floorLoop key fuel2 (t.nodeGet k0) acc =
        .ok (tr.floorAux key acc) := by
  intro tr
  induction tr with
  | leaf =>
    intro k0 fuel h fuel2 acc hf
    rw [nodeGet_of_empty t k0 (reify_leaf_inv t fuel k0 h)]
    cases fuel2 with
    | zero => omega
    | succ f2 => rfl
  | node l kk it r ihl ihr =>
    intro k0 fuel h fuel2 acc hf
    obtain ⟨hkk, hget, f, hfeq, hl, hr⟩ := reify_node_inv t fuel k0 l r kk it h
    subst hkk
    rw [hget]
    cases fuel2 with
    | zero => simp [RBT.numNodes] at hf
    | succ f2 =>
      have hfl : l.numNodes + 1 ≤ f2 := by
        simp only [RBT.numNodes] at hf; omega
      have hfr : r.numNodes + 1 ≤ f2 := by
        simp only [RBT.numNodes] at hf; omega
      simp only [Tree.floorLoop]
      by_cases h0 : (bytesCompare key kk == 0) = true
      · rw [if_pos h0]
        simp [RBT.floorAux, h0]
      · rw [if_neg h0]
        by_cases hlt : bytesCompare key kk < 0
        · rw [if_pos hlt]
          rw [show Node.Left ⟨kk, it⟩ t = t.nodeGet it.left from rfl]
          rw [ihl it.left f hl f2 acc hfl]
          simp [RBT.floorAux, h0, hlt]
        · rw [if_neg hlt]
          rw [show Node.Right ⟨kk, it⟩ t = t.nodeGet it.right from rfl]
          rw [ihr it.right f hr f2 (some ⟨kk, it⟩) hfr]
          simp [RBT.floorAux, h0, hlt]

/-- The ceiling loop on the store agrees with its structural replay on
the reified tree, given enough fuel. -/
theorem ceilingLoop_reify (t : Tree) (key : Key) : ∀ (tr : RBT) (k0 : Key)
    (fuel : Nat), t.reify fuel k0 = some tr →
    ∀ (fuel2 : Nat) (acc : Option Node), tr.numNodes + 1 ≤ fuel2 →
      t.ceilingLoop key fuel2 (t.nodeGet k0) acc =
        .ok (tr.ceilingAux key acc) := by
  intro tr
  induction tr with
  | leaf =>
    intro k0 fuel h fuel2 acc hf
    rw [nodeGet_of_empty t k0 (reify_leaf_inv t fuel k0 h)]
    cases fuel2 with
    | zero => omega
    | succ f2 => rfl
  | node l kk it r ihl ihr =>
    intro k0 fuel h fuel2 acc hf
    obtain ⟨hkk, hget, f, hfeq, hl, hr⟩ := reify_node_inv t fuel k0 l r kk it h
    subst hkk
    rw [hget]
    cases fuel2 with
    | zero => simp [RBT.numNodes] at hf
    | succ f2 =>
      have hfl : l.numNodes + 1 ≤ f2 := by
        simp only [RBT.numNodes] at hf; omega
      have hfr : r.numNodes + 1 ≤ f2 := by
        simp only [RBT.numNodes] at hf; omega
      simp only [Tree.ceilingLoop]
      by_cases h0 : (bytesCompare key kk == 0) = true
      · rw [if_pos h0]
        simp [RBT.ceilingAux, h0]
      · rw [if_neg h0]
        by_cases hlt : bytesCompare key kk < 0
        · rw [if_pos hlt]
          rw [show Node.Left ⟨kk, it⟩ t = t.nodeGet it.left from rfl]
          rw [ihl it.left f hl f2 (some ⟨kk, it⟩) hfl]
          simp [RBT.ceilingAux, h0, hlt]
        · rw [if_neg hlt]
          rw [show Node.Right ⟨kk, it⟩ t = t.nodeGet it.right from rfl]
          rw [ihr it.right f hr f2 acc hfr]
          simp [RBT.ceilingAux, h0, hlt]

/-- On a search-ordered tree the structural floor replay computes the
spec's oracle: the largest key at most the probe (falling back to the
accumulated candidate when the subtree has none). -/
theorem floorAux_oracle (key : Key) : ∀ tr : RBT, tr.isBST = true →
    ∀ acc : Option Node,
      (match floorOracle tr.inorder key with
       | none => tr.floorAux key acc = acc
       | some fk => ∃ it, tr.floorAux key acc = some ⟨fk, it⟩) := by
  intro tr
  induction tr with
  | leaf =>
    intro _ acc
    simp [floorOracle, RBT.inorder, keyMax?, RBT.floorAux]
  | node l kk it r ihl ihr =>
    intro hbst acc
    simp only [RBT.isBST, Bool.and_eq_true] at hbst
    obtain ⟨⟨⟨hall_l, hall_r⟩, hbst_l⟩, hbst_r⟩ := hbst
    have hmem_l : ∀ x ∈ l.inorder, bytesCompare x kk < 0 := by
      intro x hx
      simpa using allKeys_mem _ l hall_l x hx
    have hmem_r : ∀ x ∈ r.inorder, bytesCompare kk x < 0 := by
      intro x hx
      simpa using allKeys_mem _ r hall_r x hx
    by_cases h0 : bytesCompare key kk = 0
    · have hk : key = kk := bytesCompare_eq_zero h0
      subst hk
      have horacle :
          floorOracle (RBT.inorder (RBT.node l key it r)) key = some key := by
        unfold floorOracle
        simp only [RBT.inorder]
        rw [List.filter_append, List.filter_append]
        rw [show List.filter (fun x => decide (bytesCompare x key ≤ 0)) l.inorder
            = l.inorder from List.filter_eq_self.mpr (fun a ha => by
          have h1 := hmem_l a ha
          simp only [decide_eq_true_eq]
          omega)]
        rw [show List.filter (fun x => decide (bytesCompare x key ≤ 0)) [key]
            = [key] from by
          rw [List.filter_cons_of_pos (by simp [bytesCompare_self])]
          rfl]
        rw [show List.filter (fun x => decide (bytesCompare x key ≤ 0)) r.inorder
            = [] from List.filter_eq_nil_iff.mpr (fun a ha => by
          have h1 := hmem_r a ha
          have h2 : 0 < bytesCompare a key := (bytesCompare_lt_iff key a).mp h1
          simp only [decide_eq_true_eq]
          omega)]
        rw [List.append_nil]
        exact keyMax?_mid l.inorder [] key hmem_l (by simp)
      rw [horacle]
      exact ⟨it, by simp [RBT.floorAux, bytesCompare_self]⟩
    · by_cases hlt : bytesCompare key kk < 0
      · have hkkgt : 0 < bytesCompare kk key := (bytesCompare_lt_iff key kk).mp hlt
        have horacle :
            floorOracle (RBT.inorder (RBT.node l kk it r)) key =
              floorOracle l.inorder key := by
          unfold floorOracle
          simp only [RBT.inorder]
          rw [List.filter_append, List.filter_append]
          rw [show List.filter (fun x => decide (bytesCompare x key ≤ 0)) [kk]
              = [] from by
            rw [List.filter_cons_of_neg (by simp only [decide_eq_true_eq]; omega)]
            rfl]
          rw [show List.filter (fun x => decide (bytesCompare x key ≤ 0)) r.inorder
              = [] from List.filter_eq_nil_iff.mpr (fun a ha => by
            have h1 := hmem_r a ha
            have h2 : bytesCompare key a < 0 :=
              bytesCompare_lt_trans key kk a hlt h1
            have h3 : 0 < bytesCompare a key := (bytesCompare_lt_iff key a).mp h2
            simp only [decide_eq_true_eq]
            omega)]
          simp
        rw [horacle]
        have hfa : (RBT.node l kk it r).floorAux key acc = l.floorAux key acc := by
          simp [RBT.floorAux, h0, hlt]
        rw [hfa]
        exact ihl hbst_l acc
      · have hgt : 0 < bytesCompare key kk := by omega
        have hkkl : bytesCompare kk key < 0 := (bytesCompare_lt_iff kk key).mpr hgt
        have horacle :
            floorOracle (RBT.inorder (RBT.node l kk it r)) key =
              match floorOracle r.inorder key with
              | none => some kk
              | some m => some m := by
          unfold floorOracle
          simp only [RBT.inorder]
          rw [List.filter_append, List.filter_append]
          rw [show List.filter (fun x => decide (bytesCompare x key ≤ 0)) l.inorder
              = l.inorder from List.filter_eq_self.mpr (fun a ha => by
            have h1 := hmem_l a ha
            have h2 : bytesCompare a key < 0 :=
              bytesCompare_lt_trans a kk key h1 hkkl
            simp only [decide_eq_true_eq]
            omega)]
          rw [show List.filter (fun x => decide (bytesCompare x key ≤ 0)) [kk]
              = [kk] from by
            rw [List.filter_cons_of_pos (by simp only [decide_eq_true_eq]; omega)]
            rfl]
          rw [List.append_assoc, List.singleton_append]
          exact keyMax?_mid l.inorder
            (List.filter (fun x => decide (bytesCompare x key ≤ 0)) r.inorder) kk
            hmem_l (fun y hy => hmem_r y (List.mem_of_mem_filter hy))
        rw [horacle]
        have hfa : (RBT.node l kk it r).floorAux key acc =
            r.floorAux key (some ⟨kk, it⟩) := by
          simp [RBT.floorAux, h0, hlt]
        rw [hfa]
        have hres := ihr hbst_r (some ⟨kk, it⟩)
        cases hor : floorOracle r.inorder key with
        | none =>
          rw [hor] at hres
          exact ⟨it, hres⟩
        | some m =>
          rw [hor] at hres
          exact hres

/-- On a search-ordered tree the structural ceiling replay computes the
spec's oracle: the smallest key at least the probe. -/
theorem ceilingAux_oracle (key : Key) : ∀ tr : RBT, tr.isBST = true →
    ∀ acc : Option Node,
      (match ceilingOracle tr.inorder key with
       | none => tr.ceilingAux key acc = acc
       | some ck => ∃ it, tr.ceilingAux key acc = some ⟨ck, it⟩) := by
  intro tr
  induction tr with
  | leaf =>
    intro _ acc
    simp [ceilingOracle, RBT.inorder, keyMin?, RBT.ceilingAux]
  | node l kk it r ihl ihr =>
    intro hbst acc
    simp only [RBT.isBST, Bool.and_eq_true] at hbst
    obtain ⟨⟨⟨hall_l, hall_r⟩, hbst_l⟩, hbst_r⟩ := hbst
    have hmem_l : ∀ x ∈ l.inorder, bytesCompare x kk < 0 := by
      intro x hx
      simpa using allKeys_mem _ l hall_l x hx
    have hmem_r : ∀ x ∈ r.inorder, bytesCompare kk x < 0 := by
      intro x hx
      simpa using allKeys_mem _ r hall_r x hx
    by_cases h0 : bytesCompare key kk = 0
    · have hk : key = kk := bytesCompare_eq_zero h0
      subst hk
      have horacle :
          ceilingOracle (RBT.inorder (RBT.node l key it r)) key = some key := by
        unfold ceilingOracle
        simp only [RBT.inorder]
        rw [List.filter_append, List.filter_append]
        rw [show List.filter (fun x => decide (0 ≤ bytesCompare x key)) l.inorder
            = [] from List.filter_eq_nil_iff.mpr (fun a ha => by
          have h1 := hmem_l a ha
          simp only [decide_eq_true_eq]
          omega)]
        rw [show List.filter (fun x => decide (0 ≤ bytesCompare x key)) [key]
            = [key] from by
          rw [List.filter_cons_of_pos (by simp [bytesCompare_self])]
          rfl]
        rw [show List.filter (fun x => decide (0 ≤ bytesCompare x key)) r.inorder
            = r.inorder from List.filter_eq_self.mpr (fun a ha => by
          have h1 := hmem_r a ha
          have h2 : 0 < bytesCompare a key := (bytesCompare_lt_iff key a).mp h1
          simp only [decide_eq_true_eq]
          omega)]
        rw [List.nil_append]
        exact keyMin?_mid [] r.inorder key (by simp) hmem_r
      rw [horacle]
      exact ⟨it, by simp [RBT.ceilingAux, bytesCompare_self]⟩
    · by_cases hlt : bytesCompare key kk < 0
      · have hkkgt : 0 < bytesCompare kk key := (bytesCompare_lt_iff key kk).mp hlt
        have horacle :
            ceilingOracle (RBT.inorder (RBT.node l kk it r)) key =
              match ceilingOracle l.inorder key with
              | none => some kk
              | some m => some m := by
          unfold ceilingOracle
          simp only [RBT.inorder]
          rw [List.filter_append, List.filter_append]
          rw [show List.filter (fun x => decide (0 ≤ bytesCompare x key)) [kk]
              = [kk] from by
            rw [List.filter_cons_of_pos (by simp only [decide_eq_true_eq]; omega)]
            rfl]
          rw [show List.filter (fun x => decide (0 ≤ bytesCompare x key)) r.inorder
              = r.inorder from List.filter_eq_self.mpr (fun a ha => by
            have h1 := hmem_r a ha
            have h2 : bytesCompare key a < 0 :=
              bytesCompare_lt_trans key kk a hlt h1
            have h3 : 0 < bytesCompare a key := (bytesCompare_lt_iff key a).mp h2
            simp only [decide_eq_true_eq]
            omega)]
          rw [List.append_assoc, List.singleton_append]
          exact keyMin?_mid
            (List.filter (fun x => decide (0 ≤ bytesCompare x key)) l.inorder)
            r.inorder kk
            (fun x hx => hmem_l x (List.mem_of_mem_filter hx)) hmem_r
        rw [horacle]
        have hfa : (RBT.node l kk it r).ceilingAux key acc =
            l.ceilingAux key (some ⟨kk, it⟩) := by
          simp [RBT.ceilingAux, h0, hlt]
        rw [hfa]
        have hres := ihl hbst_l (some ⟨kk, it⟩)
        cases hor : ceilingOracle l.inorder key with
        | none =>
          rw [hor] at hres
          exact ⟨it, hres⟩
        | some m =>
          rw [hor] at hres
          exact hres
      · have hgt : 0 < bytesCompare key kk := by omega
        have hkkl : bytesCompare kk key < 0 := (bytesCompare_lt_iff kk key).mpr hgt
        have horacle :
            ceilingOracle (RBT.inorder (RBT.node l kk it r)) key =
              ceilingOracle r.inorder key := by
          unfold ceilingOracle
          simp only [RBT.inorder]
          rw [List.filter_append, List.filter_append]
          rw [show List.filter (fun x => decide (0 ≤ bytesCompare x key)) l.inorder
              = [] from List.filter_eq_nil_iff.mpr (fun a ha => by
            have h1 := hmem_l a ha
            have h2 : bytesCompare a key < 0 :=
              bytesCompare_lt_trans a kk key h1 hkkl
            simp only [decide_eq_true_eq]
            omega)]
          rw [show List.filter (fun x => decide (0 ≤ bytesCompare x key)) [kk]
              = [] from by
            rw [List.filter_cons_of_neg (by simp only [decide_eq_true_eq]; omega)]
            rfl]
          simp
        rw [horacle]
        have hfa : (RBT.node l kk it r).ceilingAux key acc =
            r.ceilingAux key acc := by
          simp [RBT.ceilingAux, h0, hlt]
        rw [hfa]
        exact ihr hbst_r acc

/-- Claim C3.  For every tree state whose storage reifies from the root
to a search-ordered tree, and every probe key, `Floor` returns
`(node, true)` for the node holding the largest stored key at most the
probe and `Ceiling` the node holding the smallest stored key at least
the probe, each returning `(nil, false)` exactly when no such bound
exists (in particular on the empty tree). -/
theorem floor_ceiling_match_oracle (t : Tree) (k : Key) (fuel fuel2 : Nat)
    (tr : RBT) (hre : t.reify fuel t.rootKey = some tr)
    (hbst : tr.isBST = true) (hfuel : tr.numNodes + 1 ≤ fuel2) :
    (match floorOracle tr.inorder k with
     | some fk => ∃ n : Node, t.Floor k fuel2 = .ok (some n, true) ∧ n.key = fk
     | none => t.Floor k fuel2 = .ok (none, false)) ∧
    (match ceilingOracle tr.inorder k with
     | some ck => ∃ n : Node,
        t.Ceiling k fuel2 = .ok (some n, true) ∧ n.key = ck
     | none => t.Ceiling k fuel2 = .ok (none, false)) := by
  have hfl : t.floorLoop k fuel2 t.Root none = .ok (tr.floorAux k none) :=
    floorLoop_reify t k tr t.rootKey fuel hre fuel2 none hfuel
  have hcl : t.ceilingLoop k fuel2 t.Root none = .ok (tr.ceilingAux k none) :=
    ceilingLoop_reify t k tr t.rootKey fuel hre fuel2 none hfuel
  have hfo := floorAux_oracle k tr hbst none
  have hco := ceilingAux_oracle k tr hbst none
  constructor
  · cases hor : floorOracle tr.inorder k with
    | none =>
      rw [hor] at hfo
      simp only [Tree.Floor, Bind.bind, Except.bind, hfl, hfo]
      rfl
    | some fk =>
      rw [hor] at hfo
      obtain ⟨it, hit⟩ := hfo
      refine ⟨⟨fk, it⟩, ?_, rfl⟩
      simp only [Tree.Floor, Bind.bind, Except.bind, hfl, hit]
      rfl
  · cases hor : ceilingOracle tr.inorder k with
    | none =>
      rw [hor] at hco
      simp only [Tree.Ceiling, Bind.bind, Except.bind, hcl, hco]
      rfl
    | some ck =>
      rw [hor] at hco
      obtain ⟨it, hit⟩ := hco
      refine ⟨⟨ck, it⟩, ?_, rfl⟩
      simp only [Tree.Ceiling, Bind.bind, Except.bind, hcl, hit]
      rfl

/-- Witness for claim C3's theorem at the spec's concrete scenario: on
the stored key set {20, 30, 40, 60, 70, 80}, floor(45) is the node for
40, ceiling(45) the node for 60, and floor(10) reports not found. -/
theorem floor_ceiling_match_oracle_witness :
    floorOracle sixReified.inorder [45] = some [40] ∧
    ceilingOracle sixReified.inorder [45] = some [60] ∧
    floorOracle sixReified.inorder [10] = none ∧
    (∃ n : Node, sixTree.Floor [45] 99 = .ok (some n, true) ∧ n.key = [40]) ∧
    (∃ n : Node, sixTree.Ceiling [45] 99 = .ok (some n, true) ∧ n.key = [60]) ∧
    sixTree.Floor [10] 99 = .ok (none, false) := by
  have h45 := floor_ceiling_match_oracle sixTree [45] 99 99 sixReified rfl
    (by decide) (by decide)
  have h10 := floor_ceiling_match_oracle sixTree [10] 99 99 sixReified rfl
    (by decide) (by decide)
  have e1 : floorOracle sixReified.inorder [45] = some [40] := rfl
  have e2 : ceilingOracle sixReified.inorder [45] = some [60] := rfl
  have e3 : floorOracle sixReified.inorder [10] = none := rfl
  refine ⟨e1, e2, e3, ?_, ?_, ?_⟩
  · have h1 := h45.1
    rw [e1] at h1
    exact h1
  · have h2 := h45.2
    rw [e2] at h2
    exact h2
  · have h3 := h10.1
    rw [e3] at h3
    exact h3

/-- Persisting a node never touches the transient count. -/
theorem Save_size (t : Tree) (n : Node) : ((t.Save n).1).size = t.size := by
  unfold Tree.Save DB.put
  by_cases hc : t.db.storeFails.contains n.key = true
  · rw [if_pos hc]
  · rw [if_neg hc]

/-- The physical delete never touches the transient count. -/
theorem deleteNode_size (t : Tree) (n : Node) (force : Bool) :
    (t.deleteNode n force).size = t.size := by
  unfold Tree.deleteNode
  split <;> rfl

/-- Structural re-linking never touches the transient count. -/
theorem replaceNode_size (t : Tree) (old : Node) (newN : Option Node)
    (t' : Tree) (x : Option Node)
    (h : t.replaceNode old newN = .ok (t', x)) : t'.size = t.size := by
  unfold Tree.replaceNode at h
  by_cases hp : t.db.isEmptyKey old.ParentKey = true
  · rw [if_pos hp] at h
    dsimp only [Bind.bind, Except.bind, pure, Except.pure] at h
    cases newN with
    | none => cases h; rfl
    | some n => cases h; exact Save_size _ _
  · rw [if_neg hp] at h
    dsimp only [Bind.bind, Except.bind, pure, Except.pure] at h
    cases hpar : old.Parent t with
    | none => rw [hpar] at h; cases h
    | some p =>
      rw [hpar] at h
      dsimp only [req, Bind.bind, Except.bind, pure, Except.pure] at h
      cases newN with
      | none => cases h; exact Save_size _ _
      | some n => cases h; simp [Save_size]

/-- Left rotation never touches the transient count. -/
theorem rotateLeft_size (t : Tree) (n : Node) (t' : Tree)
    (h : t.rotateLeft n = .ok t') : t'.size = t.size := by
  unfold Tree.rotateLeft at h
  cases hr : n.Right t with
  | none => rw [hr] at h; cases h
  | some right =>
    rw [hr] at h
    dsimp only [req, Bind.bind, Except.bind] at h
    cases hrep : t.replaceNode n (some right) with
    | error e => rw [hrep] at h; cases h
    | ok p =>
      obtain ⟨t1, right?⟩ := p
      rw [hrep] at h
      dsimp only at h
      have ht1 : t1.size = t.size := replaceNode_size _ _ _ _ _ hrep
      cases right? with
      | none => dsimp only [req] at h; cases h
      | some right1 =>
        dsimp only [req, Bind.bind, Except.bind] at h
        by_cases he : t1.db.isEmptyKey right1.LeftKey = true
        · rw [if_pos he] at h
          dsimp only [pure, Except.pure] at h
          cases h
          simp [Save_size, ht1]
        · rw [if_neg he] at h
          cases hrl : t1.nodeGet right1.LeftKey with
          | none => rw [hrl] at h; dsimp only [req] at h; cases h
          | some rl =>
            rw [hrl] at h
            dsimp only [req, pure, Except.pure, Bind.bind, Except.bind] at h
            cases h
            simp [Save_size, ht1]

/-- Right rotation never touches the transient count. -/
theorem rotateRight_size (t : Tree) (n : Node) (t' : Tree)
    (h : t.rotateRight n = .ok t') : t'.size = t.size := by
  unfold Tree.rotateRight at h
  cases hr : n.Left t with
  | none => rw [hr] at h; cases h
  | some left =>
    rw [hr] at h
    dsimp only [req, Bind.bind, Except.bind] at h
    cases hrep : t.replaceNode n (some left) with
    | error e => rw [hrep] at h; cases h
    | ok p =>
      obtain ⟨t1, left?⟩ := p
      rw [hrep] at h
      dsimp only at h
      have ht1 : t1.size = t.size := replaceNode_size _ _ _ _ _ hrep
      cases left? with
      | none => dsimp only [req] at h; cases h
      | some left1 =>
        dsimp only [req, Bind.bind, Except.bind] at h
        by_cases he : t1.db.isEmptyKey left1.RightKey = true
        · rw [if_pos he] at h
          dsimp only [pure, Except.pure] at h
          cases h
          simp [Save_size, ht1]
        · rw [if_neg he] at h
          cases hlr : t1.nodeGet left1.RightKey with
          | none => rw [hlr] at h; dsimp only [req] at h; cases h
          | some lr =>
            rw [hlr] at h
            dsimp only [req, pure, Except.pure, Bind.bind, Except.bind] at h
            cases h
            simp [Save_size, ht1]

/-- Deletion fixup case 6 never touches the transient count. -/
theorem deleteCase6_size (t : Tree) (n : Node) (t' : Tree)
    (h : t.deleteCase6 n = .ok t') : t'.size = t.size := by
  unfold Tree.deleteCase6 at h
  cases hp : req (n.Parent t) with
  | error e => rw [hp] at h; cases h
  | ok parent =>
    rw [hp] at h
    dsimp only [Bind.bind, Except.bind] at h
    cases hs : req (n.sibling t) with
    | error e => rw [hs] at h; cases h
    | ok sibling =>
      rw [hs] at h
      dsimp only at h
      split at h
      · cases hsr : req (sibling.Right t) with
        | error e => rw [hsr] at h; cases h
        | ok sr =>
          rw [hsr] at h
          dsimp only [Bind.bind, Except.bind, pure, Except.pure] at h
          cases hrot : ((((t.Save
              (sibling.setColor (nodeColor (some parent)))).1.Save
              (parent.setColor black)).1).Save
              (sr.setColor black)).1.rotateLeft (parent.setColor black) with
          | error e => rw [hrot] at h; cases h
          | ok t4 =>
            rw [hrot] at h
            cases h
            have := rotateLeft_size _ _ _ hrot
            simp [deleteNode_size, this, Save_size]
      · split at h
        · cases hsl : req (sibling.Left t) with
          | error e => rw [hsl] at h; cases h
          | ok sl =>
            rw [hsl] at h
            dsimp only [Bind.bind, Except.bind, pure, Except.pure] at h
            cases hrot : ((((t.Save
                (sibling.setColor (nodeColor (some parent)))).1.Save
                (parent.setColor black)).1).Save
                (sl.setColor black)).1.rotateRight (parent.setColor black) with
            | error e => rw [hrot] at h; cases h
            | ok t4 =>
              rw [hrot] at h
              cases h
              have := rotateRight_size _ _ _ hrot
              simp [deleteNode_size, this, Save_size]
        · dsimp only [pure, Except.pure, Bind.bind, Except.bind] at h
          cases h
          simp [deleteNode_size, Save_size]

/-- Deletion fixup case 5 never touches the transient count. -/
theorem deleteCase5_size (t : Tree) (n : Node) (t' : Tree)
    (h : t.deleteCase5 n = .ok t') : t'.size = t.size := by
  unfold Tree.deleteCase5 at h
  cases hp : req (n.Parent t) with
  | error e => rw [hp] at h; cases h
  | ok parent =>
    rw [hp] at h
    dsimp only [Bind.bind, Except.bind] at h
    cases hs : req (n.sibling t) with
    | error e => rw [hs] at h; cases h
    | ok sibling =>
      rw [hs] at h
      dsimp only at h
      split at h
      · cases hsl : req (sibling.Left t) with
        | error e => rw [hsl] at h; cases h
        | ok sl =>
          rw [hsl] at h
          dsimp only [Bind.bind, Except.bind] at h
          cases hrot : (((t.Save (sibling.setColor red)).1.Save
              (sl.setColor black)).1).rotateRight (sibling.setColor red) with
          | error e => rw [hrot] at h; cases h
          | ok t4 =>
            rw [hrot] at h
            dsimp only at h
            have h4 : t4.size = t.size := by
              have := rotateRight_size _ _ _ hrot
              simp [Save_size] at this
              exact this
            rw [← h4]
            exact deleteCase6_size _ _ _ h
      · split at h
        · cases hsr : req (sibling.Right t) with
          | error e => rw [hsr] at h; cases h
          | ok sr =>
            rw [hsr] at h
            dsimp only [Bind.bind, Except.bind] at h
            cases hrot : (((t.Save (sibling.setColor red)).1.Save
                (sr.setColor black)).1).rotateLeft (sibling.setColor red) with
            | error e => rw [hrot] at h; cases h
            | ok t4 =>
              rw [hrot] at h
              dsimp only at h
              have h4 : t4.size = t.size := by
                have := rotateLeft_size _ _ _ hrot
                simp [Save_size] at this
                exact this
              rw [← h4]
              exact deleteCase6_size _ _ _ h
        · dsimp only [pure, Except.pure, Bind.bind, Except.bind] at h
          exact deleteCase6_size _ _ _ h

/-- Deletion fixup case 4 never touches the transient count. -/
theorem deleteCase4_size (t : Tree) (n : Node) (t' : Tree)
    (h : t.deleteCase4 n = .ok t') : t'.size = t.size := by
  unfold Tree.deleteCase4 at h
  cases hs : req (n.sibling t) with
  | error e => rw [hs] at h; cases h
  | ok sibling =>
    rw [hs] at h
    dsimp only [Bind.bind, Except.bind] at h
    split at h
    · cases hp : req (n.Parent t) with
      | error e => rw [hp] at h; cases h
      | ok parent =>
        rw [hp] at h
        dsimp only [Bind.bind, Except.bind, pure, Except.pure] at h
        cases h
        simp [Save_size]
    · exact deleteCase5_size _ _ _ h

/-- Deletion fixup case 3 never touches the transient count, provided
the re-entry into case 1 does not. -/
theorem deleteCase3_size (rec1 : Tree → Node → M Tree)
    (hrec : ∀ t1 n1 t2, rec1 t1 n1 = .ok t2 → t2.size = t1.size)
    (t : Tree) (n : Node) (t' : Tree)
    (h : t.deleteCase3 rec1 n = .ok t') : t'.size = t.size := by
  unfold Tree.deleteCase3 at h
  cases hs : req (n.sibling t) with
  | error e => rw [hs] at h; cases h
  | ok sibling =>
    rw [hs] at h
    dsimp only [Bind.bind, Except.bind] at h
    split at h
    · cases hp : req (n.Parent t) with
      | error e => rw [hp] at h; cases h
      | ok parent =>
        rw [hp] at h
        dsimp only [Bind.bind, Except.bind] at h
        cases hr1 : rec1 (t.Save (sibling.setColor red)).1 parent with
        | error e => rw [hr1] at h; cases h
        | ok t2 =>
          rw [hr1] at h
          dsimp only [pure, Except.pure] at h
          cases h
          have := hrec _ _ _ hr1
          simp [deleteNode_size, this, Save_size]
    · exact deleteCase4_size _ _ _ h

/-- Deletion fixup case 2 never touches the transient count, provided
the re-entry into case 1 does not. -/
theorem deleteCase2_size (rec1 : Tree → Node → M Tree)
    (hrec : ∀ t1 n1 t2, rec1 t1 n1 = .ok t2 → t2.size = t1.size)
    (t : Tree) (n : Node) (t' : Tree)
    (h : t.deleteCase2 rec1 n = .ok t') : t'.size = t.size := by
  unfold Tree.deleteCase2 at h
  dsimp only [Bind.bind, Except.bind] at h
  split at h
  · cases hp : req (n.Parent t) with
    | error e => rw [hp] at h; cases h
    | ok parent =>
      rw [hp] at h
      dsimp only [Bind.bind, Except.bind] at h
      cases hs : req (n.sibling t) with
      | error e => rw [hs] at h; cases h
      | ok sibling =>
        rw [hs] at h
        dsimp only [Bind.bind, Except.bind] at h
        split at h
        · cases hrot : (((t.Save (parent.setColor red)).1.Save
              (sibling.setColor black)).1).rotateLeft
              (parent.setColor red) with
          | error e => rw [hrot] at h; cases h
          | ok t4 =>
            rw [hrot] at h
            dsimp only at h
            have h4 : t4.size = t.size := by
              have := rotateLeft_size _ _ _ hrot
              simp [Save_size] at this
              exact this
            rw [← h4]
            exact deleteCase3_size rec1 hrec _ _ _ h
        · cases hrot : (((t.Save (parent.setColor red)).1.Save
              (sibling.setColor black)).1).rotateRight
              (parent.setColor red) with
          | error e => rw [hrot] at h; cases h
          | ok t4 =>
            rw [hrot] at h
            dsimp only at h
            have h4 : t4.size = t.size := by
              have := rotateRight_size _ _ _ hrot
              simp [Save_size] at this
              exact this
            rw [← h4]
            exact deleteCase3_size rec1 hrec _ _ _ h
  · exact deleteCase3_size rec1 hrec _ _ _ h

/-- Deletion fixup case 1 never touches the transient count. -/
theorem deleteCase1_size : ∀ (fuel : Nat) (t : Tree) (n : Node) (t' : Tree),
    t.deleteCase1 fuel n = .ok t' → t'.size = t.size := by
  intro fuel
  induction fuel with
  | zero => intro t n t' h; cases h
  | succ f ih =>
    intro t n t' h
    simp only [Tree.deleteCase1] at h
    split at h
    · cases h
      exact deleteNode_size _ _ _
    · exact deleteCase2_size _ (fun t1 n1 t2 hh => ih t1 n1 t2 hh) _ _ _ h

/-- Whenever `Remove` finds a record and completes, it decrements the
wrapping `uint64` count, whatever else it did. -/
theorem Remove_found_size (t : Tree) (k : Key) (fuel : Nat) (node0 : Node)
    (hget : t.GetNode k = .ok (some node0)) (t' : Tree)
    (h : t.Remove k fuel = .ok t') :
    t'.size = (t.size + (2 ^ 64 - 1)) % 2 ^ 64 := by
  unfold Tree.Remove at h
  rw [hget] at h
  dsimp only at h
  split at h
  · -- both children present: the splice block is skipped entirely
    rename_i l r hL hR
    cases hm : t.maximumNode fuel l with
    | error e => rw [hm] at h; cases h
    | ok nd =>
      rw [hm] at h
      dsimp only [Bind.bind, Except.bind, pure, Except.pure] at h
      cases h
      rfl
  · -- at most one child: walk the splice block
    rename_i hboth
    dsimp only [Bind.bind, Except.bind, pure, Except.pure] at h
    split at h
    · cases h
      rfl
    · rename_i x x1 hboth2
      set L := (if t.db.isEmptyKey node0.LeftKey = true then none
        else node0.Left t) with hLdef
      set R := (if t.db.isEmptyKey node0.RightKey = true then none
        else node0.Right t) with hRdef
      set child := (if R.isNone = true then L else R) with hchild
      set n1 := node0.setColor (nodeColor child) with hn1
      set ta := (t.Save n1).1 with hta
      split at h
      · -- node is black: fixup runs before the splice
        cases hd : ta.deleteCase1 fuel n1 with
        | error e => rw [hd] at h; cases h
        | ok tb =>
          rw [hd] at h
          dsimp only at h
          cases hrep : tb.replaceNode n1 child with
          | error e => rw [hrep] at h; cases h
          | ok d =>
            obtain ⟨tb2, child?⟩ := d
            rw [hrep] at h
            dsimp only at h
            have hsz : tb2.size = t.size := by
              rw [replaceNode_size _ _ _ _ _ hrep,
                deleteCase1_size fuel _ _ _ hd, hta, Save_size]
            split at h
            · split at h
              · cases h
                dsimp only
                rw [Save_size, hsz]
              · cases h
                dsimp only
                rw [hsz]
            · cases h
              dsimp only
              rw [hsz]
      · -- node is red: splice directly
        cases hrep : t.replaceNode node0 child with
        | error e => rw [hrep] at h; cases h
        | ok d =>
          obtain ⟨tb2, child?⟩ := d
          rw [hrep] at h
          dsimp only at h
          have hsz : tb2.size = t.size := replaceNode_size _ _ _ _ _ hrep
          split at h
          · split at h
            · cases h
              dsimp only
              rw [Save_size, hsz]
            · cases h
              dsimp only
              rw [hsz]
          · cases h
            dsimp only
            rw [hsz]

/-- Claim C10.  If `Remove(k)` runs while the transient count is 0 but
a loadable record for k still exists in storage (as after `Clear()`,
which resets the transient root and count without purging records), the
unsigned 64-bit count is decremented with wraparound, so `Size()`
afterwards reports `2 ^ 64 - 1`. -/
theorem remove_at_count_zero_wraps (t : Tree) (k : Key) (fuel : Nat)
    (t' : Tree) (hsz : t.size = 0) (hk : (k == EmptyKey) = false)
    (hlf : t.db.loadFails.contains k = false)
    (hrec : (lookupRec t.db.records k).isSome = true)
    (h : t.Remove k fuel = .ok t') : t'.Size = 2 ^ 64 - 1 := by
  obtain ⟨it, hit⟩ : ∃ it, lookupRec t.db.records k = some it := by
    cases hx : lookupRec t.db.records k with
    | none => rw [hx] at hrec; cases hrec
    | some it => exact ⟨it, rfl⟩
  have hget : t.GetNode k = .ok (some ⟨k, it⟩) := by
    unfold Tree.GetNode DB.get
    rw [if_neg (by rw [hk]; exact Bool.false_ne_true),
      if_neg (by rw [hlf]; exact Bool.false_ne_true), hit]
  have hmain := Remove_found_size t k fuel ⟨k, it⟩ hget t' h
  rw [Tree.Size, hmain, hsz]
  decide

/-- Witness for claim C10's theorem: removing key 5 from the cleared
one-key tree leaves a count of `2 ^ 64 - 1`. -/
theorem remove_at_count_zero_wraps_witness :
    (clearedTree.Remove [5] 9).map Tree.Size = .ok (2 ^ 64 - 1) := by
  have hr : clearedTree.Remove [5] 9 =
      .ok ⟨⟨[], [], [], 0⟩, EmptyKey, 2 ^ 64 - 1⟩ := rfl
  rw [hr, Except.map]
  rw [remove_at_count_zero_wraps clearedTree [5] 9 _ rfl rfl rfl rfl hr]

end Orderbook
